import Mathlib

/-!
# Verification of the resource-pack decryption pipeline

This file gives a shallow embedding of `src/lib.rs` of the `rp-decrypt`
repository: a pipeline that copies two sidecar files, decrypts a
fixed-offset encrypted content index (AES-256 in CFB-8 mode, key and IV
taken from the same key material), and then copies or decrypts each listed
content entry, prettifying JSON payloads on the way.

Modelling conventions:
* file contents, paths and keys are byte lists (`Bytes := List Nat`);
* the filesystem is an association list from paths to file bytes; only
  regular files are modelled (`create_dir_all` and `Path::parent` are the
  external collaborators the design document excludes);
* the AES-256 block cipher itself is kept abstract as a parameter
  `E : Bytes → Bytes → Bytes` (key, 16-byte shift register ↦ block);
  the CFB-8 feedback loop around it and the key/IV length checks of
  `cfb8::Decryptor::new_from_slices` are modelled concretely;
* `serde_json` is modelled by an executable strict JSON parser and a
  pretty printer over a generic value type.  Numbers are modelled as
  integers (floating-point numbers are outside the embedding), strings at
  the byte level (`\uXXXX` escapes decode to a single scalar), and objects
  as ordered member lists;
* a `.unwrap()` on `Err`/a slice-out-of-bounds panic is modelled by the
  distinguished outcome `RunResult.panic`, carrying the filesystem at the
  moment of the abort.
-/

/-- File contents, path strings and key strings, at the byte level. -/
abbrev Bytes := List Nat

/-- The bytes of a string literal (UTF-8 irrelevant here: all uses are ASCII). -/
def strBytes (s : String) : Bytes := s.data.map Char.toNat

/-! ## JSON values

`serde_json::Value`, with integer numbers and ordered object members. -/

inductive Json where
  | null : Json
  | bool (b : Bool) : Json
  | num (n : Int) : Json
  | str (s : Bytes) : Json
  | arr (elems : List Json) : Json
  | obj (members : List (Bytes × Json)) : Json

mutual
/-- Node-count measure used for the parser fuel accounting (proof-only). -/
def jsize : Json → Nat
  | .null => 1
  | .bool _ => 1
  | .num _ => 1
  | .str _ => 1
  | .arr elems => 1 + jsizeArr elems
  | .obj members => 1 + jsizeObj members
def jsizeArr : List Json → Nat
  | [] => 0
  | v :: vs => 1 + jsize v + jsizeArr vs
def jsizeObj : List (Bytes × Json) → Nat
  | [] => 0
  | kv :: ms => 1 + jsize kv.2 + jsizeObj ms
end

/-! ## JSON pretty printer

Models `serde_json::to_writer_pretty`: two-space indentation, `"k": v`
members, `[]`/`{}` for empty collections.  Control characters are escaped
as `\u00XX` (the crate uses short escapes for five of them; the design
document only requires a valid, round-tripping pretty form). -/

def indentBytes (d : Nat) : Bytes := List.replicate (2 * d) 32

def hexDigitChar (n : Nat) : Nat := if n < 10 then 48 + n else 87 + n

def escChar (c : Nat) : Bytes :=
  if c = 34 then [92, 34]
  else if c = 92 then [92, 92]
  else if c < 32 then [92, 117, 48, 48, hexDigitChar (c / 16), hexDigitChar (c % 16)]
  else [c]

def escBody : Bytes → Bytes
  | [] => []
  | c :: cs => escChar c ++ escBody cs

def quoteStr (s : Bytes) : Bytes := 34 :: (escBody s ++ [34])

/-- Decimal digits of `m`, most significant first, via explicit fuel so the
definition is structural. -/
def natPrintF : Nat → Nat → Bytes
  | 0, _ => []
  | f + 1, m => if m < 10 then [48 + m] else natPrintF f (m / 10) ++ [48 + m % 10]

def natPrint (m : Nat) : Bytes := natPrintF (m + 1) m

def intPrint (n : Int) : Bytes :=
  if n < 0 then 45 :: natPrint n.natAbs else natPrint n.natAbs

/-- Array items, one per line at indentation depth `d`, comma separated,
printed by the element printer `pe`. -/
def printItemsWith (pe : Json → Bytes) (d : Nat) : List Json → Bytes
  | [] => []
  | x :: ys =>
    match ys with
    | [] => indentBytes d ++ pe x
    | _ :: _ => indentBytes d ++ (pe x ++ 44 :: 10 :: printItemsWith pe d ys)

/-- Object members, one `"key": value` per line at indentation depth `d`,
comma separated, values printed by `pe`. -/
def printMembersWith (pe : Json → Bytes) (d : Nat) : List (Bytes × Json) → Bytes
  | [] => []
  | (k, v) :: ms =>
    match ms with
    | [] => indentBytes d ++ (quoteStr k ++ 58 :: 32 :: pe v)
    | _ :: _ =>
      indentBytes d ++
        (quoteStr k ++ 58 :: 32 :: (pe v ++ 44 :: 10 :: printMembersWith pe d ms))

/-- The pretty printer, with explicit fuel so the definition is
structurally recursive; `jsize v` fuel is always sufficient. -/
def printF : Nat → Nat → Json → Bytes
  | 0, _, _ => []
  | f + 1, d, v =>
    match v with
    | .null => [110, 117, 108, 108]
    | .bool true => [116, 114, 117, 101]
    | .bool false => [102, 97, 108, 115, 101]
    | .num n => intPrint n
    | .str s => quoteStr s
    | .arr [] => [91, 93]
    | .arr es@(_ :: _) =>
        91 :: 10 ::
          (printItemsWith (fun x => printF f (d + 1) x) (d + 1) es ++
            10 :: (indentBytes d ++ [93]))
    | .obj [] => [123, 125]
    | .obj ms@(_ :: _) =>
        123 :: 10 ::
          (printMembersWith (fun x => printF f (d + 1) x) (d + 1) ms ++
            10 :: (indentBytes d ++ [125]))

/-! A fuel of `jsize v` always suffices for `printF`; the pipeline prints
values obtained from `jsonParse data`, for which `data.length + 1` is a
provable upper bound of `jsize v` (see the parser size lemmas below), so
the normalizer below is supplied that fuel. -/

/-! ## JSON parser

A strict recursive-descent parser over bytes, with a fuel argument that
makes every definition structurally recursive.  It accepts exactly the
JSON value grammar on the integer fragment: literals, strings with the
standard escapes, integers without leading zeros, arrays and objects,
with arbitrary interleaved whitespace. -/

def isWsByte (c : Nat) : Bool := c = 32 || c = 9 || c = 10 || c = 13

def skipWs : Bytes → Bytes
  | [] => []
  | c :: cs => if isWsByte c then skipWs cs else c :: cs

def isDigit (c : Nat) : Bool := decide (48 ≤ c ∧ c ≤ 57)

def takeDigits : Bytes → Bytes × Bytes
  | [] => ([], [])
  | c :: cs =>
    if isDigit c then
      let p := takeDigits cs
      (c :: p.1, p.2)
    else ([], c :: cs)

def digitsVal (ds : Bytes) : Nat := ds.foldl (fun a d => a * 10 + (d - 48)) 0

/-- Parse a decimal natural number: nonempty digit run, no leading zero. -/
def parseNat (s : Bytes) : Option (Nat × Bytes) :=
  let p := takeDigits s
  if p.1 = [] then none
  else if p.1.head? = some 48 ∧ p.1.length ≠ 1 then none
  else some (digitsVal p.1, p.2)

def hexVal (c : Nat) : Option Nat :=
  if 48 ≤ c ∧ c ≤ 57 then some (c - 48)
  else if 97 ≤ c ∧ c ≤ 102 then some (c - 87)
  else if 65 ≤ c ∧ c ≤ 70 then some (c - 55)
  else none

def escSimple (e : Nat) : Option Nat :=
  if e = 34 then some 34
  else if e = 92 then some 92
  else if e = 47 then some 47
  else if e = 98 then some 8
  else if e = 102 then some 12
  else if e = 110 then some 10
  else if e = 114 then some 13
  else if e = 116 then some 9
  else none

/-- Parse a string body (the opening quote already consumed), returning the
unescaped content and the input after the closing quote. -/
def parseStrBody : Bytes → Option (Bytes × Bytes)
  | [] => none
  | c :: rest =>
    if c = 34 then some ([], rest)
    else if c = 92 then
      match rest with
      | [] => none
      | e :: rest2 =>
        if e = 117 then
          match rest2 with
          | h1 :: h2 :: h3 :: h4 :: rest3 =>
            match hexVal h1, hexVal h2, hexVal h3, hexVal h4 with
            | some a, some b, some c2, some d2 =>
              (parseStrBody rest3).map
                (fun p => ((((a * 16 + b) * 16 + c2) * 16 + d2) :: p.1, p.2))
            | _, _, _, _ => none
          | _ => none
        else
          match escSimple e with
          | some u => (parseStrBody rest2).map (fun p => (u :: p.1, p.2))
          | none => none
    else if c < 32 then none
    else (parseStrBody rest).map (fun p => (c :: p.1, p.2))

/-- Comma-separated nonempty item list of an array, including the closing
bracket, parameterized by the value parser. -/
def parseItemsWith (pv : Bytes → Option (Json × Bytes)) :
    Nat → Bytes → Option (List Json × Bytes)
  | 0, _ => none
  | f + 1, s =>
    match pv s with
    | none => none
    | some (v, r) =>
      match skipWs r with
      | [] => none
      | c :: t =>
        if c = 44 then (parseItemsWith pv f t).map (fun p => (v :: p.1, p.2))
        else if c = 93 then some ([v], t)
        else none

/-- Comma-separated nonempty member list of an object, including the
closing brace, parameterized by the value parser. -/
def parseMembersWith (pv : Bytes → Option (Json × Bytes)) :
    Nat → Bytes → Option (List (Bytes × Json) × Bytes)
  | 0, _ => none
  | f + 1, s =>
    match skipWs s with
    | [] => none
    | c :: r =>
      if c = 34 then
        match parseStrBody r with
        | none => none
        | some (k, r2) =>
          match skipWs r2 with
          | [] => none
          | c2 :: r3 =>
            if c2 = 58 then
              match pv r3 with
              | none => none
              | some (v, r4) =>
                match skipWs r4 with
                | [] => none
                | c3 :: t =>
                  if c3 = 44 then
                    (parseMembersWith pv f t).map (fun p => ((k, v) :: p.1, p.2))
                  else if c3 = 125 then some ([(k, v)], t)
                  else none
            else none
      else none

def parseValue : Nat → Bytes → Option (Json × Bytes)
  | 0, _ => none
  | f + 1, s =>
    match skipWs s with
    | [] => none
    | c :: r =>
      if isDigit c then (parseNat (c :: r)).map (fun p => (Json.num (p.1 : Int), p.2))
      else
        match c, r with
        | 110, 117 :: 108 :: 108 :: r2 => some (Json.null, r2)
        | 116, 114 :: 117 :: 101 :: r2 => some (Json.bool true, r2)
        | 102, 97 :: 108 :: 115 :: 101 :: r2 => some (Json.bool false, r2)
        | 34, r2 => (parseStrBody r2).map (fun p => (Json.str p.1, p.2))
        | 45, r2 => (parseNat r2).map (fun p => (Json.num (-(p.1 : Int)), p.2))
        | 91, r2 =>
          match skipWs r2 with
          | [] => none
          | c2 :: r3 =>
            if c2 = 93 then some (Json.arr [], r3)
            else
              (parseItemsWith (parseValue f) (f + 1) (c2 :: r3)).map
                (fun p => (Json.arr p.1, p.2))
        | 123, r2 =>
          match skipWs r2 with
          | [] => none
          | c2 :: r3 =>
            if c2 = 125 then some (Json.obj [], r3)
            else
              (parseMembersWith (parseValue f) (f + 1) (c2 :: r3)).map
                (fun p => (Json.obj p.1, p.2))
        | _, _ => none

/-- `serde_json::from_slice` for a generic value: parse one value, allow
trailing whitespace, reject anything else. -/
def jsonParse (s : Bytes) : Option Json :=
  match parseValue (s.length + 1) s with
  | some (v, rest) => if skipWs rest = [] then some v else none
  | none => none

/-- The JSON Normalizer (design §4.3) as it appears inside
`internal_decrypt`: strict-parse the buffer; on success re-serialize it
pretty-printed, on failure hand the buffer back unchanged. -/
def normalizeJson (data : Bytes) : Bytes :=
  match jsonParse data with
  | some v => printF (data.length + 1) 0 v
  | none => data

/-! ## Filesystem model

An association list from absolute path strings (as byte lists) to file
contents.  Only regular files are modelled; `fs.lookup p = some data`
means a regular file with contents `data` exists at `p` (Rust's
`Path::is_file`), `none` means no such file.  `FS.write` models creating
or truncating a file (`File::create` + write, or the destination side of
`fs::copy`): it replaces the contents in place, or appends a new entry. -/

abbrev FS := List (Bytes × Bytes)

def FS.lookup : FS → Bytes → Option Bytes
  | [], _ => none
  | (q, v) :: fs, p => if q = p then some v else FS.lookup fs p

def FS.write : FS → Bytes → Bytes → FS
  | [], p, v => [(p, v)]
  | (q, w) :: fs, p, v => if q = p then (q, v) :: fs else (q, w) :: FS.write fs p v

/-- `Path::join` of Rust: a path with a root (here: starting with `/`,
byte 47) replaces the base entirely; otherwise the relative path is
appended after a separator.  No normalization of `.`/`..` happens. -/
def joinPath (root p : Bytes) : Bytes :=
  if p.head? = some 47 then p else root ++ 47 :: p

/-- Boolean prefix test on byte lists. -/
def bytesLe : Bytes → Bytes → Bool
  | [], _ => true
  | _ :: _, [] => false
  | a :: as, b :: bs => a == b && bytesLe as bs

/-- Boolean suffix test on byte lists. -/
def bytesSuffix (suf s : Bytes) : Bool := bytesLe suf.reverse s.reverse

/-- `p` denotes a location inside the directory tree rooted at `root`
(the root itself included), at the level of literal path strings. -/
def underRoot (root p : Bytes) : Bool := p == root || bytesLe (root ++ [47]) p

/-- `str::ends_with(".json")` on the entry's path string. -/
def endsWithJson (p : Bytes) : Bool := bytesSuffix [46, 106, 115, 111, 110] p

/-! Path resolution, modelling how the operating system interprets `.` and
`..` components when a literal path is opened.  Used only for the path
traversal analysis (claim C10). -/

/-- Split a byte list into `/`-separated segments. -/
def splitSegsAux (acc : Bytes) : Bytes → List Bytes
  | [] => [acc.reverse]
  | c :: cs => if c = 47 then acc.reverse :: splitSegsAux [] cs else splitSegsAux (c :: acc) cs

def splitSegs (p : Bytes) : List Bytes := splitSegsAux [] p

/-- Interpret `.`, `..` and empty segments against a stack of directory
names, as the OS does for an absolute path. -/
def resolveStack (stk : List Bytes) : List Bytes → List Bytes
  | [] => stk.reverse
  | s :: ss =>
    if s = [46, 46] then resolveStack stk.tail ss
    else if s = [46] ∨ s = [] then resolveStack stk ss
    else resolveStack (s :: stk) ss

def joinSegs : List Bytes → Bytes
  | [] => []
  | s :: ss =>
    match ss with
    | [] => s
    | _ :: _ => s ++ 47 :: joinSegs ss

/-- OS-level resolution of an absolute path string. -/
def resolvePath (p : Bytes) : Bytes := 47 :: joinSegs (resolveStack [] (splitSegs p))

/-- A path segment that the OS resolver leaves alone: not empty, not `.`
and not `..`.  A path all of whose segments are clean is a fixed point of
`resolvePath`, so for such paths literal byte equality coincides with
OS-level file identity. -/
def cleanSeg (s : Bytes) : Bool := !(s.isEmpty || s == [46] || s == [46, 46])

/-! ## Cipher adapter

`cfb8::Decryptor<Aes256>`.  The AES-256 block encryption is the abstract
parameter `E : Bytes → Bytes → Bytes` (key and 16-byte shift register in,
block out; only the first byte of the output block is used by CFB-8).
`new_from_slices` enforces the exact key/IV lengths (32 and 16 bytes) and
is the only fallible part of the adapter. -/

structure Aes256Cfb8Dec where
  key : Bytes
  iv : Bytes

/-- `KeyIvInit::new_from_slices`: fails (an `InvalidLength` error, here
`none`) unless the key is exactly 32 bytes and the IV exactly 16. -/
def newFromSlices (key iv : Bytes) : Option Aes256Cfb8Dec :=
  if key.length = 32 ∧ iv.length = 16 then some ⟨key, iv⟩ else none

/-- CFB-8 decryption: each plaintext byte is the ciphertext byte XORed
with the first byte of the block encryption of the current shift
register; the register then shifts the ciphertext byte in. -/
def cfb8Run (E : Bytes → Bytes → Bytes) (key reg : Bytes) : Bytes → Bytes
  | [] => []
  | c :: cs => (((E key reg).headD 0) ^^^ c) :: cfb8Run E key (reg.drop 1 ++ [c]) cs

/-- `AsyncStreamCipher::decrypt`: in-place buffer decryption, modelled as
the decrypted buffer (length-preserving). -/
def Aes256Cfb8Dec.decrypt (E : Bytes → Bytes → Bytes) (d : Aes256Cfb8Dec)
    (buf : Bytes) : Bytes :=
  cfb8Run E d.key d.iv buf

/-! ## The content index -/

/-- One entry of the decrypted content index:
`struct ContentEntry { path: String, key: Option<String> }`. -/
structure ContentEntry where
  path : Bytes
  key : Option Bytes
deriving DecidableEq

def jobjFind : List (Bytes × Json) → Bytes → Option Json
  | [], _ => none
  | (k, v) :: ms, key => if k = key then some v else jobjFind ms key

/-- serde's derived `Deserialize` for `ContentEntry`: an object with a
required string field `path` and an optional string-or-null field `key`;
unknown fields are ignored. -/
def decodeEntry : Json → Option ContentEntry
  | .obj ms =>
    match jobjFind ms (strBytes "path") with
    | some (.str p) =>
      match jobjFind ms (strBytes "key") with
      | none => some ⟨p, none⟩
      | some .null => some ⟨p, none⟩
      | some (.str k) => some ⟨p, some k⟩
      | some _ => none
    | _ => none
  | _ => none

def decodeEntries : List Json → Option (List ContentEntry)
  | [] => some []
  | j :: js =>
    match decodeEntry j, decodeEntries js with
    | some e, some es => some (e :: es)
    | _, _ => none

/-- serde's derived `Deserialize` for `struct Content { content: Vec<ContentEntry> }`. -/
def decodeContent : Json → Option (List ContentEntry)
  | .obj ms =>
    match jobjFind ms (strBytes "content") with
    | some (.arr xs) => decodeEntries xs
    | _ => none
  | _ => none

/-! ## The pipeline -/

def manifestName : Bytes := strBytes "manifest.json"

def iconName : Bytes := strBytes "pack_icon.png"

def contentsName : Bytes := strBytes "contents.json"

inductive RunError where
  | ioError : RunError
  | decodeError : RunError
deriving DecidableEq

/-- Outcome of a run (or of one entry): normal return, an error returned
through `Result`/`?`, or a panic (`unwrap` on `Err`, slice out of
bounds).  Each outcome carries the filesystem state at that point. -/
inductive RunResult where
  | ok (fs : FS) : RunResult
  | err (e : RunError) (fs : FS) : RunResult
  | panic (fs : FS) : RunResult
deriving DecidableEq

def RunResult.fs : RunResult → FS
  | .ok fs => fs
  | .err _ fs => fs
  | .panic fs => fs

/-- The body of the per-entry loop of `internal_decrypt`.

* Missing or non-regular source file: the entry is skipped (`continue`).
* Entry without a key: skip if source and destination are the same path;
  otherwise, for `.json`-suffixed paths parse-and-prettify with verbatim
  fallback (`normalizeJson`), else copy verbatim.
* Entry with a key: read the file, decrypt in place with
  `new_from_slices(key_bytes, &key_bytes[0..16]).unwrap()` (the slice
  panics when the key is shorter than 16 bytes, the `unwrap` when the key
  is not exactly 32 bytes), then normalize `.json`-suffixed paths as
  above and write the result. -/
def processEntry (E : Bytes → Bytes → Bytes) (packDir outDir : Bytes)
    (fs : FS) (e : ContentEntry) : RunResult :=
  let inPath := joinPath packDir e.path
  match fs.lookup inPath with
  | none => .ok fs
  | some data =>
    let outPath := joinPath outDir e.path
    match e.key with
    | none =>
      if inPath = outPath then .ok fs
      else if endsWithJson e.path then .ok (fs.write outPath (normalizeJson data))
      else .ok (fs.write outPath data)
    | some k =>
      if k.length < 16 then .panic fs
      else
        match newFromSlices k (k.take 16) with
        | none => .panic fs
        | some dec =>
          let buf := dec.decrypt E data
          if endsWithJson e.path then .ok (fs.write outPath (normalizeJson buf))
          else .ok (fs.write outPath buf)

def processEntries (E : Bytes → Bytes → Bytes) (packDir outDir : Bytes) :
    FS → List ContentEntry → RunResult
  | fs, [] => .ok fs
  | fs, e :: es =>
    match processEntry E packDir outDir fs e with
    | .ok fs2 => processEntries E packDir outDir fs2 es
    | r => r

/-- `internal_decrypt` of `src/lib.rs`:

1. create the output directory (directory creation is an assumed-correct
   external collaborator and has no effect on the file map);
2. copy `manifest.json` and `pack_icon.png` from the pack directory to
   the output directory (`fs::copy`: I/O error if the source is absent);
3. open `contents.json`, seek to offset 256 (seeking past EOF succeeds
   and the subsequent read returns no bytes, hence `List.drop 256`), read
   the rest, decrypt it with
   `new_from_slices(&key_bytes, &key_bytes[0..16]).unwrap()` — the whole
   key string is passed as the cipher key, so the slice indexing panics
   for keys shorter than 16 bytes and the `unwrap` panics whenever the
   key is not exactly 32 bytes — and `serde_json`-decode the result
   (`?`: a decode error aborts the run);
4. process each content entry in order, fail-fast;
5. return `Ok(true)`. -/
def internal_decrypt (E : Bytes → Bytes → Bytes) (key packDir outDir : Bytes)
    (fs : FS) : RunResult :=
  match fs.lookup (joinPath packDir manifestName) with
  | none => .err .ioError fs
  | some m =>
    let fs1 := fs.write (joinPath outDir manifestName) m
    match fs1.lookup (joinPath packDir iconName) with
    | none => .err .ioError fs1
    | some ic =>
      let fs2 := fs1.write (joinPath outDir iconName) ic
      match fs2.lookup (joinPath packDir contentsName) with
      | none => .err .ioError fs2
      | some raw =>
        let buffer := raw.drop 256
        if key.length < 16 then .panic fs2
        else
          match newFromSlices key (key.take 16) with
          | none => .panic fs2
          | some dec =>
            match (jsonParse (dec.decrypt E buffer)).bind decodeContent with
            | none => .err .decodeError fs2
            | some entries => processEntries E packDir outDir fs2 entries

/-- Modelled from the spec: the variant of `internal_decrypt` that claim
C1 describes, in which the cipher for the index is keyed with exactly the
first 32 bytes of the master key (IV: its first 16 bytes), and each
per-entry cipher with exactly the first 32 bytes of the entry key (IV:
its first 16 bytes).  It differs from the source, which passes the whole
key string to `new_from_slices`. -/
def processEntrySpec32 (E : Bytes → Bytes → Bytes) (packDir outDir : Bytes)
    (fs : FS) (e : ContentEntry) : RunResult :=
  let inPath := joinPath packDir e.path
  match fs.lookup inPath with
  | none => .ok fs
  | some data =>
    let outPath := joinPath outDir e.path
    match e.key with
    | none =>
      if inPath = outPath then .ok fs
      else if endsWithJson e.path then .ok (fs.write outPath (normalizeJson data))
      else .ok (fs.write outPath data)
    | some k =>
      match newFromSlices (k.take 32) (k.take 16) with
      | none => .panic fs
      | some dec =>
        let buf := dec.decrypt E data
        if endsWithJson e.path then .ok (fs.write outPath (normalizeJson buf))
        else .ok (fs.write outPath buf)

def processEntriesSpec32 (E : Bytes → Bytes → Bytes) (packDir outDir : Bytes) :
    FS → List ContentEntry → RunResult
  | fs, [] => .ok fs
  | fs, e :: es =>
    match processEntrySpec32 E packDir outDir fs e with
    | .ok fs2 => processEntriesSpec32 E packDir outDir fs2 es
    | r => r

/-- Modelled from the spec: see `processEntrySpec32`. -/
def internal_decrypt_spec32 (E : Bytes → Bytes → Bytes) (key packDir outDir : Bytes)
    (fs : FS) : RunResult :=
  match fs.lookup (joinPath packDir manifestName) with
  | none => .err .ioError fs
  | some m =>
    let fs1 := fs.write (joinPath outDir manifestName) m
    match fs1.lookup (joinPath packDir iconName) with
    | none => .err .ioError fs1
    | some ic =>
      let fs2 := fs1.write (joinPath outDir iconName) ic
      match fs2.lookup (joinPath packDir contentsName) with
      | none => .err .ioError fs2
      | some raw =>
        let buffer := raw.drop 256
        match newFromSlices (key.take 32) (key.take 16) with
        | none => .panic fs2
        | some dec =>
          match (jsonParse (dec.decrypt E buffer)).bind decodeContent with
          | none => .err .decodeError fs2
          | some entries => processEntriesSpec32 E packDir outDir fs2 entries

/-- Heads that terminate a number literal. -/
def headNotDigit (rest : Bytes) : Prop :=
  ∀ c, rest.head? = some c → isDigit c = false

/-- The possible first bytes of a printed JSON value. -/
def goodHead (c : Nat) : Prop :=
  c = 110 ∨ c = 116 ∨ c = 102 ∨ c = 34 ∨ c = 91 ∨ c = 123 ∨ c = 45 ∨ isDigit c = true

/-- What follows the first printed item inside a printed array. -/
def itemsTail (f d : Nat) (xs : List Json) : Bytes :=
  match xs with
  | [] => []
  | _ :: _ => 44 :: 10 :: printItemsWith (fun y => printF f (d + 1) y) (d + 1) xs

/-- What follows the first printed member inside a printed object. -/
def membersTail (f d : Nat) (ms : List (Bytes × Json)) : Bytes :=
  match ms with
  | [] => []
  | _ :: _ => 44 :: 10 :: printMembersWith (fun y => printF f (d + 1) y) (d + 1) ms

/-! ## Claim support -/

/-- The filesystem after step 2 of the pipeline: the two sidecar files
copied verbatim into the output root. -/
def sidecarWrites (out : Bytes) (fs : FS) (m i : Bytes) : FS :=
  (fs.write (joinPath out manifestName) m).write (joinPath out iconName) i

/-- The content entries the run will process, as a function of the
initial state: mirrors steps 2–3 of `internal_decrypt` (the sidecar
copies followed by the index decryption and decode), with `none` for
every failure mode. -/
def indexEntriesOf (E : Bytes → Bytes → Bytes) (key pack out : Bytes)
    (fs : FS) : Option (List ContentEntry) :=
  match fs.lookup (joinPath pack manifestName) with
  | none => none
  | some m =>
    let fs1 := fs.write (joinPath out manifestName) m
    match fs1.lookup (joinPath pack iconName) with
    | none => none
    | some ic =>
      let fs2 := fs1.write (joinPath out iconName) ic
      match fs2.lookup (joinPath pack contentsName) with
      | none => none
      | some raw =>
        match newFromSlices key (key.take 16) with
        | none => none
        | some dec => (jsonParse (dec.decrypt E (raw.drop 256))).bind decodeContent

/-! ## Concrete fixtures used by the witnesses -/

/-- A block cipher whose keystream byte is always zero: CFB-8 decryption
becomes the identity, so fixture archives can store plaintext payloads. -/
def wE : Bytes → Bytes → Bytes := fun _ _ => List.replicate 16 0

def wKey : Bytes := strBytes "0123456789abcdef0123456789abcdef"

def wPack : Bytes := strBytes "/p"

def wOut : Bytes := strBytes "/o"

def wFsC2 : FS :=
  [(strBytes "/p/manifest.json", [1]),
   (strBytes "/p/pack_icon.png", [2]),
   (strBytes "/p/contents.json", List.replicate 100 7)]

def wKey33 : Bytes := strBytes "0123456789abcdef0123456789abcdef0"

def wFsC7 : FS :=
  [(strBytes "/p/manifest.json", [1, 2, 3]),
   (strBytes "/p/pack_icon.png", [4, 5])]

def wFsC3a : FS := [(strBytes "/p/a.json", strBytes "\x7boops")]

def wFsC3b : FS := [(strBytes "/p/b.json", strBytes "\x7boops")]

def wFsC3c : FS :=
  [(strBytes "/p/manifest.json", [1]),
   (strBytes "/p/pack_icon.png", [2]),
   (strBytes "/p/contents.json", List.replicate 256 0 ++ strBytes "notjson")]

def wFsC6a : FS := [(strBytes "/p/a.json", strBytes "[1,2]")]

def wFsC6b : FS := [(strBytes "/p/b.json", strBytes "\x7b\"k\":true\x7d")]

def wFsC6c : FS := [(strBytes "/p/c.bin", [9, 8, 7])]

def wFsC10 : FS := [(strBytes "/p/manifest.json", [1]), (strBytes "/s/x.bin", [5, 6])]

def wFsC1 : FS :=
  [(strBytes "/p/manifest.json", [1]),
   (strBytes "/p/pack_icon.png", [2]),
   (strBytes "/p/contents.json", List.replicate 256 0 ++ strBytes "\x7b\"content\":[]\x7d")]

/-! ## Claim C8: the archive root is not read-only under traversal -/

def wFsC8w : FS :=
  [(strBytes "/p/manifest.json", [1]),
   (strBytes "/p/pack_icon.png", [2]),
   (strBytes "/p/contents.json", List.replicate 256 0 ++
     strBytes "\x7b\"content\":[\x7b\"path\":\"x.bin\"\x7d]\x7d"),
   (strBytes "/p/x.bin", [5, 6])]

/-- A block cipher whose keystream byte is always one: CFB-8 decryption
flips the low bit of every byte, so it visibly changes file contents. -/
def wE1 : Bytes → Bytes → Bytes := fun _ _ => List.replicate 16 1

def wFsC8 : FS :=
  [(strBytes "/p/manifest.json", [1]),
   (strBytes "/p/pack_icon.png", [2]),
   (strBytes "/p/contents.json", List.replicate 256 0 ++
     (strBytes "\x7b\"content\":[\x7b\"path\":\"/p/x.bin\",\"key\":\"0123456789abcdef0123456789abcdef\"\x7d]\x7d").map
       (fun b => b ^^^ 1)),
   (strBytes "/p/x.bin", [5, 6])]

/-! ## Claim C9: running the pipeline twice

The entry loop only reads under the archive root and only writes under the
output root (when entry paths are relative and the two roots are
disjoint), so each entry's single write is a function of the initial
filesystem.  `entryOut` computes that write, `applyWrites` replays a list
of writes, and `lastWrite` says which value, if any, a write list leaves
at a path. -/

def entryOut (E : Bytes → Bytes → Bytes) (pack out : Bytes) (fs0 : FS)
    (e : ContentEntry) : Option (Bytes × Bytes) :=
  match fs0.lookup (joinPath pack e.path) with
  | none => none
  | some data =>
    match e.key with
    | none => some (joinPath out e.path,
        if endsWithJson e.path then normalizeJson data else data)
    | some k => some (joinPath out e.path,
        if endsWithJson e.path
        then normalizeJson ((Aes256Cfb8Dec.mk k (k.take 16)).decrypt E data)
        else (Aes256Cfb8Dec.mk k (k.take 16)).decrypt E data)

def applyWrites : FS → List (Option (Bytes × Bytes)) → FS
  | fs, [] => fs
  | fs, w :: ws =>
    match w with
    | none => applyWrites fs ws
    | some (p, v) => applyWrites (fs.write p v) ws

def writeAt (w : Option (Bytes × Bytes)) (p : Bytes) : Option Bytes :=
  match w with
  | none => none
  | some (q, v) => if p = q then some v else none

def lastWrite (ws : List (Option (Bytes × Bytes))) (p : Bytes) : Option Bytes :=
  List.foldr (fun w acc =>
    match acc with
    | some v => some v
    | none => writeAt w p) none ws

def wFsC9 : FS :=
  [(strBytes "/p/manifest.json", [1]),
   (strBytes "/p/pack_icon.png", [2]),
   (strBytes "/p/contents.json", List.replicate 256 0 ++
     (strBytes "\x7b\"content\":[\x7b\"path\":\"/o/x.bin\",\"key\":\"0123456789abcdef0123456789abcdef\"\x7d]\x7d").map
       (fun b => b ^^^ 1)),
   (strBytes "/o/x.bin", [5, 6])]

def wFsC9w : FS :=
  [(strBytes "/p/manifest.json", [1]),
   (strBytes "/p/pack_icon.png", [2]),
   (strBytes "/p/contents.json", List.replicate 256 0 ++
     (strBytes "\x7b\"content\":[\x7b\"path\":\"x.bin\",\"key\":\"0123456789abcdef0123456789abcdef\"\x7d]\x7d").map
       (fun b => b ^^^ 1)),
   (strBytes "/p/x.bin", [5, 6])]

example : jsonParse (strBytes "\x7b\"x\": 1\x7d") =
    some (Json.obj [(strBytes "x", Json.num 1)]) := by rfl

example : jsonParse (strBytes "[null, -12, \"a\"]") =
    some (Json.arr [Json.null, Json.num (-12), Json.str (strBytes "a")]) := by rfl

example : jsonParse (strBytes "\x7b\"x\": 01\x7d") = none := by rfl

example : jsonParse [] = none := by rfl

example : normalizeJson (strBytes "[null,    2]")
    = strBytes "[\n  null,\n  2\n]" := by rfl

example : jsonParse (normalizeJson (strBytes "\x7b\"a\": [1]\x7d")) =
    some (Json.obj [(strBytes "a", Json.arr [Json.num 1])]) := by rfl

example : endsWithJson (strBytes "a/b.json") = true := by rfl

example : endsWithJson (strBytes "a/b.jsonx") = false := by rfl

example : joinPath (strBytes "/root") (strBytes "a/b") = strBytes "/root/a/b" := by rfl

example : joinPath (strBytes "/root") (strBytes "/abs") = strBytes "/abs" := by rfl

example : resolvePath (strBytes "/out/../evil") = strBytes "/evil" := by rfl

example : resolvePath (strBytes "/out/sub/../a.json") = strBytes "/out/a.json" := by rfl

example :
    (jsonParse (strBytes "\x7b\"content\":[\x7b\"path\":\"a.json\",\"key\":null\x7d,\x7b\"path\":\"b.dat\",\"key\":\"k\"\x7d]\x7d")).bind decodeContent
    = some [⟨strBytes "a.json", none⟩, ⟨strBytes "b.dat", some (strBytes "k")⟩] := by rfl

/-! ## Whitespace and digit lemmas -/

theorem skipWs_cons_ws (c : Nat) (s : Bytes) (h : isWsByte c = true) :
    skipWs (c :: s) = skipWs s := by
  simp [skipWs, h]

theorem skipWs_cons_not_ws (c : Nat) (s : Bytes) (h : isWsByte c = false) :
    skipWs (c :: s) = c :: s := by
  simp [skipWs, h]

theorem skipWs_append_ws (lws : Bytes) (s : Bytes)
    (h : ∀ c ∈ lws, isWsByte c = true) : skipWs (lws ++ s) = skipWs s := by
  induction lws with
  | nil => rfl
  | cons c cs ih =>
    have hc : isWsByte c = true := h c (by simp)
    simp only [List.cons_append, skipWs_cons_ws c _ hc]
    exact ih (fun d hd => h d (by simp [hd]))

theorem indentBytes_ws (d : Nat) : ∀ c ∈ indentBytes d, isWsByte c = true := by
  intro c hc
  have : c = 32 := List.eq_of_mem_replicate hc
  simp [this, isWsByte]

theorem skipWs_indent (d : Nat) (s : Bytes) :
    skipWs (indentBytes d ++ s) = skipWs s :=
  skipWs_append_ws _ _ (indentBytes_ws d)

theorem skipWs_length (s : Bytes) : (skipWs s).length ≤ s.length := by
  induction s with
  | nil => simp [skipWs]
  | cons c cs ih =>
    by_cases h : isWsByte c = true
    · rw [skipWs_cons_ws c cs h]; exact le_trans ih (by simp)
    · rw [skipWs_cons_not_ws c cs (by simpa using h)]

theorem headNotDigit_nil : headNotDigit [] := by
  intro c hc
  simp at hc

theorem headNotDigit_cons (c : Nat) (s : Bytes) (h : isDigit c = false) :
    headNotDigit (c :: s) := by
  intro d hd
  simp at hd
  simpa [← hd] using h

/-! ## Decimal digit round trip -/

theorem natPrintF_congr : ∀ f g m, m < f → m < g → natPrintF f m = natPrintF g m := by
  intro f
  induction f with
  | zero => intro g m hf; omega
  | succ f ih =>
    intro g m hf hg
    obtain ⟨g', rfl⟩ : ∃ g', g = g' + 1 := ⟨g - 1, by omega⟩
    by_cases h10 : m < 10
    · simp [natPrintF, h10]
    · have hdiv : m / 10 < m := Nat.div_lt_self (by omega) (by omega)
      simp only [natPrintF, if_neg h10]
      rw [ih g' (m / 10) (by omega) (by omega)]

theorem natPrintF_ne_nil : ∀ f m, m < f → natPrintF f m ≠ [] := by
  intro f
  induction f with
  | zero => intro m hf; omega
  | succ f _ =>
    intro m _
    by_cases h10 : m < 10 <;> simp [natPrintF, h10]

theorem natPrintF_digits : ∀ f m, m < f → ∀ c ∈ natPrintF f m, isDigit c = true := by
  intro f
  induction f with
  | zero => intro m hf; omega
  | succ f ih =>
    intro m hf c hc
    by_cases h10 : m < 10
    · simp [natPrintF, h10] at hc
      simp [hc, isDigit]
      omega
    · have hdiv : m / 10 < m := Nat.div_lt_self (by omega) (by omega)
      simp only [natPrintF, if_neg h10, List.mem_append, List.mem_singleton] at hc
      rcases hc with hc | hc
      · exact ih (m / 10) (by omega) c hc
      · have : m % 10 < 10 := Nat.mod_lt _ (by omega)
        simp [hc, isDigit]
        omega

theorem natPrintF_head_ne_zero : ∀ f m, m < f → 1 ≤ m →
    (natPrintF f m).head? ≠ some 48 := by
  intro f
  induction f with
  | zero => intro m hf; omega
  | succ f ih =>
    intro m hf hm
    by_cases h10 : m < 10
    · simp [natPrintF, h10]
      omega
    · have hdiv : m / 10 < m := Nat.div_lt_self (by omega) (by omega)
      have h1 : 1 ≤ m / 10 := Nat.one_le_div_iff (by omega) |>.2 (by omega)
      have hne := natPrintF_ne_nil f (m / 10) (by omega)
      simp only [natPrintF, if_neg h10]
      rw [List.head?_append_of_ne_nil _ hne]
      exact ih (m / 10) (by omega) h1

theorem digitsVal_append (ds : Bytes) (d : Nat) :
    digitsVal (ds ++ [d]) = 10 * digitsVal ds + (d - 48) := by
  simp [digitsVal, List.foldl_append]
  ring

theorem digitsVal_natPrintF : ∀ f m, m < f → digitsVal (natPrintF f m) = m := by
  intro f
  induction f with
  | zero => intro m hf; omega
  | succ f ih =>
    intro m hf
    by_cases h10 : m < 10
    · simp [natPrintF, h10, digitsVal]
    · have hdiv : m / 10 < m := Nat.div_lt_self (by omega) (by omega)
      simp only [natPrintF, if_neg h10]
      rw [digitsVal_append, ih (m / 10) (by omega)]
      have h48 : 48 + m % 10 - 48 = m % 10 := by omega
      have := Nat.div_add_mod m 10
      omega

theorem takeDigits_append (ds rest : Bytes)
    (hds : ∀ c ∈ ds, isDigit c = true) (hrest : headNotDigit rest) :
    takeDigits (ds ++ rest) = (ds, rest) := by
  induction ds with
  | nil =>
    cases rest with
    | nil => rfl
    | cons c cs =>
      have : isDigit c = false := hrest c rfl
      simp [takeDigits, this]
  | cons c cs ih =>
    have hc : isDigit c = true := hds c (by simp)
    have := ih (fun d hd => hds d (by simp [hd]))
    simp [takeDigits, hc, this]

theorem parseNat_natPrint (f m : Nat) (rest : Bytes) (hf : m < f)
    (hrest : headNotDigit rest) :
    parseNat (natPrintF f m ++ rest) = some (m, rest) := by
  have htake := takeDigits_append (natPrintF f m) rest (natPrintF_digits f m hf) hrest
  have hne := natPrintF_ne_nil f m hf
  simp only [parseNat, htake]
  rw [if_neg hne]
  have hcond : ¬((natPrintF f m).head? = some 48 ∧ (natPrintF f m).length ≠ 1) := by
    rintro ⟨hhead, hlen⟩
    by_cases h10 : m < 10
    · obtain ⟨f', rfl⟩ : ∃ f', f = f' + 1 := ⟨f - 1, by omega⟩
      simp [natPrintF, h10] at hlen
    · have h1 : 1 ≤ m := by omega
      exact natPrintF_head_ne_zero f m hf h1 hhead
  rw [if_neg hcond, digitsVal_natPrintF f m hf]

/-! ## String escaping round trip -/

theorem parseStrBody_quote (rest : Bytes) : parseStrBody (34 :: rest) = some ([], rest) := by
  rw [parseStrBody.eq_def]
  simp

theorem parseStrBody_esc2 (e u : Nat) (X : Bytes) (he : e ≠ 117) (hu : escSimple e = some u) :
    parseStrBody (92 :: e :: X) = (parseStrBody X).map (fun p => (u :: p.1, p.2)) := by
  rw [parseStrBody.eq_def]
  simp only [if_neg (by omega : ¬(92 : Nat) = 34), if_pos rfl, if_neg he, hu]
  simp

theorem parseStrBody_unicode (u1 u2 : Nat) (a b : Nat) (X : Bytes)
    (h1 : hexVal u1 = some a) (h2 : hexVal u2 = some b) :
    parseStrBody (92 :: 117 :: 48 :: 48 :: u1 :: u2 :: X) =
      (parseStrBody X).map (fun p => ((a * 16 + b) :: p.1, p.2)) := by
  have h48 : hexVal 48 = some 0 := by rfl
  rw [parseStrBody.eq_def]
  simp only [if_neg (by omega : ¬(92 : Nat) = 34), if_pos rfl, h48, h1, h2]
  simp

theorem parseStrBody_lit (c : Nat) (X : Bytes) (h34 : c ≠ 34) (h92 : c ≠ 92)
    (h32 : ¬c < 32) :
    parseStrBody (c :: X) = (parseStrBody X).map (fun p => (c :: p.1, p.2)) := by
  rw [parseStrBody.eq_def]
  simp only [if_neg h34, if_neg h92, if_neg h32]

theorem hexVal_hexDigitChar (m : Nat) (h : m < 16) :
    hexVal (hexDigitChar m) = some m := by
  by_cases h10 : m < 10
  · simp only [hexDigitChar, if_pos h10, hexVal]
    rw [if_pos (by omega)]
    simp
  · simp only [hexDigitChar, if_neg h10, hexVal]
    rw [if_neg (by omega), if_pos (by omega)]
    simp only [Option.some.injEq]
    omega

theorem parseStrBody_escBody : ∀ (s rest : Bytes),
    parseStrBody (escBody s ++ (34 :: rest)) = some (s, rest) := by
  intro s
  induction s with
  | nil =>
    intro rest
    simp only [escBody, List.nil_append]
    exact parseStrBody_quote rest
  | cons c cs ih =>
    intro rest
    by_cases h34 : c = 34
    · subst h34
      have hesc : escChar 34 = [92, 34] := by rfl
      simp only [escBody, hesc, List.cons_append, List.append_assoc, List.nil_append]
      rw [parseStrBody_esc2 34 34 _ (by omega) (by rfl), ih rest]
      rfl
    · by_cases h92 : c = 92
      · subst h92
        have hesc : escChar 92 = [92, 92] := by rfl
        simp only [escBody, hesc, List.cons_append, List.append_assoc, List.nil_append]
        rw [parseStrBody_esc2 92 92 _ (by omega) (by rfl), ih rest]
        rfl
      · by_cases h32 : c < 32
        · have hd : c / 16 < 16 := by omega
          have hm : c % 16 < 16 := Nat.mod_lt _ (by omega)
          have hesc : escChar c =
              [92, 117, 48, 48, hexDigitChar (c / 16), hexDigitChar (c % 16)] := by
            simp only [escChar, if_neg h34, if_neg h92, if_pos h32]
          simp only [escBody, hesc, List.cons_append, List.append_assoc, List.nil_append]
          rw [parseStrBody_unicode _ _ _ _ _
            (hexVal_hexDigitChar _ hd) (hexVal_hexDigitChar _ hm), ih rest]
          have heq : c / 16 * 16 + c % 16 = c := by
            have := Nat.div_add_mod c 16
            omega
          simp [heq]
        · have hesc : escChar c = [c] := by
            simp only [escChar, if_neg h34, if_neg h92, if_neg h32]
          simp only [escBody, hesc, List.cons_append, List.append_assoc, List.nil_append]
          rw [parseStrBody_lit c _ h34 h92 h32, ih rest]
          rfl

theorem parseStrBody_u4 (u1 u2 u3 u4 : Nat) (X : Bytes) :
    parseStrBody (92 :: 117 :: u1 :: u2 :: u3 :: u4 :: X) =
      match hexVal u1, hexVal u2, hexVal u3, hexVal u4 with
      | some a, some b, some c2, some d2 =>
        (parseStrBody X).map (fun p => ((((a * 16 + b) * 16 + c2) * 16 + d2) :: p.1, p.2))
      | _, _, _, _ => none := by
  rw [parseStrBody.eq_def]
  simp only [if_neg (by omega : ¬(92 : Nat) = 34), if_pos rfl]
  simp only [if_true]

theorem parseStrBody_length : ∀ (s : Bytes) (p : Bytes × Bytes),
    parseStrBody s = some p → p.2.length < s.length := by
  suffices H : ∀ (n : Nat) (s : Bytes), s.length ≤ n → ∀ (p : Bytes × Bytes),
      parseStrBody s = some p → p.2.length < s.length by
    intro s
    exact H s.length s le_rfl
  intro n
  induction n with
  | zero =>
    intro s hs p hp
    cases s with
    | nil => rw [parseStrBody.eq_def] at hp; cases hp
    | cons c rest => simp at hs
  | succ n ih =>
    intro s hs p hp
    cases s with
    | nil => rw [parseStrBody.eq_def] at hp; cases hp
    | cons c rest =>
      by_cases h34 : c = 34
      · subst h34
        rw [parseStrBody_quote] at hp
        cases hp
        simp
      · by_cases h92 : c = 92
        · subst h92
          cases rest with
          | nil =>
            rw [parseStrBody.eq_def] at hp
            simp at hp
          | cons e rest2 =>
            by_cases he : e = 117
            · subst he
              rcases rest2 with _ | ⟨u1, _ | ⟨u2, _ | ⟨u3, _ | ⟨u4, rest3⟩⟩⟩⟩
              · rw [parseStrBody.eq_def] at hp
                simp at hp
              · rw [parseStrBody.eq_def] at hp
                simp at hp
              · rw [parseStrBody.eq_def] at hp
                simp at hp
              · rw [parseStrBody.eq_def] at hp
                simp at hp
              · rw [parseStrBody_u4] at hp
                cases hh1 : hexVal u1 with
                | none => rw [hh1] at hp; simp at hp
                | some a =>
                  cases hh2 : hexVal u2 with
                  | none => rw [hh1, hh2] at hp; simp at hp
                  | some b =>
                    cases hh3 : hexVal u3 with
                    | none => rw [hh1, hh2, hh3] at hp; simp at hp
                    | some c2 =>
                      cases hh4 : hexVal u4 with
                      | none => rw [hh1, hh2, hh3, hh4] at hp; simp at hp
                      | some d2 =>
                        rw [hh1, hh2, hh3, hh4] at hp
                        simp only [] at hp
                        cases hq : parseStrBody rest3 with
                        | none => rw [hq] at hp; simp at hp
                        | some q =>
                          rw [hq] at hp
                          simp only [Option.map, Option.some.injEq] at hp
                          have hlt := ih rest3 (by simp at hs ⊢; omega) q hq
                          rw [← hp]
                          simp at hlt ⊢
                          omega
            · cases hu : escSimple e with
              | none =>
                rw [parseStrBody.eq_def] at hp
                simp [he, hu] at hp
              | some u =>
                rw [parseStrBody_esc2 e u rest2 he hu] at hp
                cases hq : parseStrBody rest2 with
                | none => rw [hq] at hp; simp at hp
                | some q =>
                  rw [hq] at hp
                  simp only [Option.map, Option.some.injEq] at hp
                  have hlt := ih rest2 (by simp at hs ⊢; omega) q hq
                  rw [← hp]
                  simp at hlt ⊢
                  omega
        · by_cases h32 : c < 32
          · rw [parseStrBody.eq_def] at hp
            simp [h34, h92, h32] at hp
          · rw [parseStrBody_lit c rest h34 h92 h32] at hp
            cases hq : parseStrBody rest with
            | none => rw [hq] at hp; simp at hp
            | some q =>
              rw [hq] at hp
              simp only [Option.map, Option.some.injEq] at hp
              have hlt := ih rest (by simp at hs ⊢; omega) q hq
              rw [← hp]
              simp at hlt ⊢
              omega

/-! ## Parser unfolding and whitespace irrelevance -/

theorem parseValue_null (f : Nat) (r : Bytes) :
    parseValue (f + 1) (110 :: 117 :: 108 :: 108 :: r) = some (Json.null, r) := by
  rfl

theorem parseValue_true (f : Nat) (r : Bytes) :
    parseValue (f + 1) (116 :: 114 :: 117 :: 101 :: r) = some (Json.bool true, r) := by
  rfl

theorem parseValue_false (f : Nat) (r : Bytes) :
    parseValue (f + 1) (102 :: 97 :: 108 :: 115 :: 101 :: r) = some (Json.bool false, r) := by
  rfl

theorem parseValue_str (f : Nat) (r : Bytes) :
    parseValue (f + 1) (34 :: r) =
      (parseStrBody r).map (fun p => (Json.str p.1, p.2)) := by
  rfl

theorem parseValue_neg (f : Nat) (r : Bytes) :
    parseValue (f + 1) (45 :: r) =
      (parseNat r).map (fun p => (Json.num (-(p.1 : Int)), p.2)) := by
  rfl

theorem parseValue_arr (f : Nat) (r2 : Bytes) :
    parseValue (f + 1) (91 :: r2) =
      (match skipWs r2 with
       | [] => none
       | c2 :: r3 =>
         if c2 = 93 then some (Json.arr [], r3)
         else
           (parseItemsWith (parseValue f) (f + 1) (c2 :: r3)).map
             (fun p => (Json.arr p.1, p.2))) := by
  rfl

theorem parseValue_obj (f : Nat) (r2 : Bytes) :
    parseValue (f + 1) (123 :: r2) =
      (match skipWs r2 with
       | [] => none
       | c2 :: r3 =>
         if c2 = 125 then some (Json.obj [], r3)
         else
           (parseMembersWith (parseValue f) (f + 1) (c2 :: r3)).map
             (fun p => (Json.obj p.1, p.2))) := by
  rfl

theorem isWsByte_false_of_digit (c : Nat) (hc : isDigit c = true) :
    isWsByte c = false := by
  simp [isDigit] at hc
  simp [isWsByte]
  omega

theorem parseValue_succ (f : Nat) (s : Bytes) :
    parseValue (f + 1) s =
      (match skipWs s with
       | [] => none
       | c :: r =>
         if isDigit c then (parseNat (c :: r)).map (fun p => (Json.num (p.1 : Int), p.2))
         else
           match c, r with
           | 110, 117 :: 108 :: 108 :: r2 => some (Json.null, r2)
           | 116, 114 :: 117 :: 101 :: r2 => some (Json.bool true, r2)
           | 102, 97 :: 108 :: 115 :: 101 :: r2 => some (Json.bool false, r2)
           | 34, r2 => (parseStrBody r2).map (fun p => (Json.str p.1, p.2))
           | 45, r2 => (parseNat r2).map (fun p => (Json.num (-(p.1 : Int)), p.2))
           | 91, r2 =>
             match skipWs r2 with
             | [] => none
             | c2 :: r3 =>
               if c2 = 93 then some (Json.arr [], r3)
               else
                 (parseItemsWith (parseValue f) (f + 1) (c2 :: r3)).map
                   (fun p => (Json.arr p.1, p.2))
           | 123, r2 =>
             match skipWs r2 with
             | [] => none
             | c2 :: r3 =>
               if c2 = 125 then some (Json.obj [], r3)
               else
                 (parseMembersWith (parseValue f) (f + 1) (c2 :: r3)).map
                   (fun p => (Json.obj p.1, p.2))
           | _, _ => none) := by
  rfl

theorem parseValue_digit (f : Nat) (c : Nat) (r : Bytes) (hc : isDigit c = true) :
    parseValue (f + 1) (c :: r) =
      (parseNat (c :: r)).map (fun p => (Json.num (p.1 : Int), p.2)) := by
  rw [parseValue_succ, skipWs_cons_not_ws c r (isWsByte_false_of_digit c hc)]
  simp only [hc, if_true]

theorem parseValue_ws (f : Nat) (lws s : Bytes)
    (h : ∀ c ∈ lws, isWsByte c = true) :
    parseValue f (lws ++ s) = parseValue f s := by
  cases f with
  | zero => rfl
  | succ f =>
    rw [parseValue_succ, parseValue_succ, skipWs_append_ws lws s h]

theorem parseItemsWith_ws (fp fl : Nat) (lws s : Bytes)
    (h : ∀ c ∈ lws, isWsByte c = true) :
    parseItemsWith (parseValue fp) fl (lws ++ s) =
      parseItemsWith (parseValue fp) fl s := by
  cases fl with
  | zero => rfl
  | succ fl =>
    rw [parseItemsWith, parseItemsWith]
    rw [parseValue_ws fp lws s h]

theorem parseMembersWith_ws (fp fl : Nat) (lws s : Bytes)
    (h : ∀ c ∈ lws, isWsByte c = true) :
    parseMembersWith (parseValue fp) fl (lws ++ s) =
      parseMembersWith (parseValue fp) fl s := by
  cases fl with
  | zero => rfl
  | succ fl =>
    rw [parseMembersWith, parseMembersWith]
    rw [skipWs_append_ws lws s h]

/-! ## Head shape of printed values -/

theorem jsize_pos (v : Json) : 1 ≤ jsize v := by
  cases v <;> simp [jsize]

theorem goodHead_not_ws (c : Nat) (h : goodHead c) : isWsByte c = false := by
  rcases h with h | h | h | h | h | h | h | h <;>
    first
      | (subst h; rfl)
      | (simp [isDigit] at h; simp [isWsByte]; omega)

theorem goodHead_ne (c : Nat) (h : goodHead c) : c ≠ 93 ∧ c ≠ 125 ∧ c ≠ 58 ∧ c ≠ 44 := by
  rcases h with h | h | h | h | h | h | h | h <;>
    first
      | (subst h; omega)
      | (simp [isDigit] at h; omega)

theorem intPrint_head : ∀ (n : Int), ∃ c t, intPrint n = c :: t ∧ goodHead c := by
  intro n
  by_cases hneg : n < 0
  · exact ⟨45, natPrint n.natAbs, by simp [intPrint, hneg], by simp [goodHead]⟩
  · have hne := natPrintF_ne_nil (n.natAbs + 1) n.natAbs (by omega)
    obtain ⟨c, t, hct⟩ := List.exists_cons_of_ne_nil hne
    refine ⟨c, t, ?_, ?_⟩
    · simp [intPrint, hneg, natPrint, hct]
    · have := natPrintF_digits (n.natAbs + 1) n.natAbs (by omega) c (by simp [hct])
      simp [goodHead, this]

theorem printF_head (f d : Nat) (v : Json) (hf : jsize v ≤ f) :
    ∃ c t, printF f d v = c :: t ∧ goodHead c := by
  obtain ⟨f', rfl⟩ : ∃ f', f = f' + 1 := ⟨f - 1, by have := jsize_pos v; omega⟩
  cases v with
  | null => exact ⟨110, _, rfl, by simp [goodHead]⟩
  | bool b =>
    cases b with
    | true => exact ⟨116, _, rfl, by simp [goodHead]⟩
    | false => exact ⟨102, _, rfl, by simp [goodHead]⟩
  | num n =>
    obtain ⟨c, t, hct, hg⟩ := intPrint_head n
    exact ⟨c, t, by simp [printF, hct], hg⟩
  | str s => exact ⟨34, _, rfl, by simp [goodHead]⟩
  | arr es =>
    cases es with
    | nil => exact ⟨91, _, rfl, by simp [goodHead]⟩
    | cons x xs => exact ⟨91, _, rfl, by simp [goodHead]⟩
  | obj ms =>
    cases ms with
    | nil => exact ⟨123, _, rfl, by simp [goodHead]⟩
    | cons kv kvs => exact ⟨123, _, rfl, by simp [goodHead]⟩

/-! ## Print–parse round trip -/

theorem headNotDigit44 (s : Bytes) : headNotDigit (44 :: s) :=
  headNotDigit_cons 44 s (by rfl)

theorem headNotDigit10 (s : Bytes) : headNotDigit (10 :: s) :=
  headNotDigit_cons 10 s (by rfl)

theorem skipWs_to_close (ind : Bytes) (hind : ∀ c ∈ ind, isWsByte c = true)
    (b : Nat) (hb : isWsByte b = false) (rest : Bytes) :
    skipWs (10 :: (ind ++ b :: rest)) = b :: rest := by
  rw [skipWs_cons_ws 10 _ (by rfl), skipWs_append_ws ind _ hind,
    skipWs_cons_not_ws b _ hb]

theorem printItemsWith_expand (f d : Nat) (x : Json) (xs : List Json) :
    printItemsWith (fun y => printF f (d + 1) y) (d + 1) (x :: xs) =
      indentBytes (d + 1) ++ (printF f (d + 1) x ++ itemsTail f d xs) := by
  cases xs <;> simp [printItemsWith, itemsTail]

theorem printMembersWith_expand (f d : Nat) (kv : Bytes × Json)
    (ms : List (Bytes × Json)) :
    printMembersWith (fun y => printF f (d + 1) y) (d + 1) (kv :: ms) =
      indentBytes (d + 1) ++
        (quoteStr kv.1 ++ 58 :: 32 :: (printF f (d + 1) kv.2 ++ membersTail f d ms)) := by
  obtain ⟨k, v⟩ := kv
  cases ms <;> simp [printMembersWith, membersTail]

mutual
theorem rtVal (v : Json) : ∀ (f fp d : Nat) (rest : Bytes), jsize v ≤ f →
    jsize v ≤ fp → headNotDigit rest →
    parseValue fp (printF f d v ++ rest) = some (v, rest) := by
  intro f fp d rest hf hfp hrest
  obtain ⟨f', rfl⟩ : ∃ f', f = f' + 1 := ⟨f - 1, by have := jsize_pos v; omega⟩
  obtain ⟨fp', rfl⟩ : ∃ fp', fp = fp' + 1 := ⟨fp - 1, by have := jsize_pos v; omega⟩
  cases v with
  | null =>
    simp only [printF, List.cons_append, List.nil_append]
    exact parseValue_null fp' rest
  | bool b =>
    cases b with
    | true =>
      simp only [printF, List.cons_append, List.nil_append]
      exact parseValue_true fp' rest
    | false =>
      simp only [printF, List.cons_append, List.nil_append]
      exact parseValue_false fp' rest
  | num n =>
    by_cases hneg : n < 0
    · simp only [printF, intPrint, if_pos hneg, natPrint, List.cons_append]
      rw [parseValue_neg fp' _]
      rw [parseNat_natPrint (n.natAbs + 1) n.natAbs rest (by omega) hrest]
      simp only [Option.map_some']
      have hval : -((n.natAbs : Nat) : Int) = n := by omega
      rw [hval]
    · have hne := natPrintF_ne_nil (n.natAbs + 1) n.natAbs (by omega)
      obtain ⟨c, t, hct⟩ := List.exists_cons_of_ne_nil hne
      have hcd : isDigit c = true :=
        natPrintF_digits (n.natAbs + 1) n.natAbs (by omega) c (by simp [hct])
      simp only [printF, intPrint, if_neg hneg, natPrint, hct, List.cons_append]
      rw [parseValue_digit fp' c (t ++ rest) hcd]
      rw [show c :: (t ++ rest) = (c :: t) ++ rest by simp, ← hct]
      rw [parseNat_natPrint (n.natAbs + 1) n.natAbs rest (by omega) hrest]
      simp only [Option.map_some']
      have hval : (((n.natAbs : Nat)) : Int) = n := by omega
      rw [hval]
  | str s =>
    simp only [printF, quoteStr, List.cons_append, List.append_assoc,
      List.singleton_append, List.nil_append]
    rw [parseValue_str fp' _]
    rw [parseStrBody_escBody s rest]
    rfl
  | arr es =>
    cases es with
    | nil =>
      simp only [printF, List.cons_append, List.nil_append]
      rw [parseValue_arr fp' _]
      rw [skipWs_cons_not_ws 93 rest (by rfl)]
      simp
    | cons x xs =>
      have hsz : jsizeArr (x :: xs) ≤ f' := by
        simp only [jsize] at hf
        omega
      have hszp : jsizeArr (x :: xs) ≤ fp' := by
        simp only [jsize] at hfp
        omega
      have hx : jsize x ≤ f' := by
        simp only [jsizeArr] at hsz
        omega
      obtain ⟨c2, t2, hct2, hg2⟩ := printF_head f' (d + 1) x hx
      have hne93 := (goodHead_ne c2 hg2).1
      simp only [printF, List.cons_append, List.append_assoc, List.singleton_append,
        List.nil_append]
      rw [parseValue_arr fp' _]
      have hscrut : skipWs (10 :: (printItemsWith (fun y => printF f' (d + 1) y)
          (d + 1) (x :: xs) ++ (10 :: (indentBytes d ++ 93 :: rest)))) =
          c2 :: (t2 ++ (itemsTail f' d xs ++ (10 :: (indentBytes d ++ 93 :: rest)))) := by
        rw [skipWs_cons_ws 10 _ (by rfl)]
        rw [printItemsWith_expand f' d x xs, hct2]
        simp only [List.append_assoc, List.cons_append]
        rw [skipWs_append_ws _ _ (indentBytes_ws (d + 1))]
        rw [skipWs_cons_not_ws c2 _ (goodHead_not_ws c2 hg2)]
      rw [hscrut]
      simp only []
      rw [if_neg hne93]
      have hback : c2 :: (t2 ++ (itemsTail f' d xs ++ (10 :: (indentBytes d ++ 93 :: rest))))
          = printF f' (d + 1) x ++ (itemsTail f' d xs ++ (10 :: (indentBytes d ++ 93 :: rest))) := by
        rw [hct2]
        simp
      rw [hback]
      have hwseq : parseItemsWith (parseValue fp') (fp' + 1)
          (printF f' (d + 1) x ++ (itemsTail f' d xs ++ (10 :: (indentBytes d ++ 93 :: rest))))
          = parseItemsWith (parseValue fp') (fp' + 1)
            (printItemsWith (fun y => printF f' (d + 1) y) (d + 1) (x :: xs) ++
              (10 :: (indentBytes d ++ 93 :: rest))) := by
        rw [printItemsWith_expand f' d x xs]
        simp only [List.append_assoc]
        exact (parseItemsWith_ws fp' (fp' + 1) (indentBytes (d + 1)) _
          (indentBytes_ws (d + 1))).symm
      rw [hwseq]
      rw [rtItems (x :: xs) f' fp' (fp' + 1) d (indentBytes d) rest
        (by simp) hsz hszp (by omega) (indentBytes_ws d) hrest]
      rfl
  | obj ms =>
    cases ms with
    | nil =>
      simp only [printF, List.cons_append, List.nil_append]
      rw [parseValue_obj fp' _]
      rw [skipWs_cons_not_ws 125 rest (by rfl)]
      simp
    | cons kv ms' =>
      have hsz : jsizeObj (kv :: ms') ≤ f' := by
        simp only [jsize] at hf
        omega
      have hszp : jsizeObj (kv :: ms') ≤ fp' := by
        simp only [jsize] at hfp
        omega
      simp only [printF, List.cons_append, List.append_assoc, List.singleton_append,
        List.nil_append]
      rw [parseValue_obj fp' _]
      have hscrut : skipWs (10 :: (printMembersWith (fun y => printF f' (d + 1) y)
          (d + 1) (kv :: ms') ++ (10 :: (indentBytes d ++ 125 :: rest)))) =
          34 :: (escBody kv.1 ++ (34 :: (58 :: (32 :: (printF f' (d + 1) kv.2 ++
            (membersTail f' d ms' ++ (10 :: (indentBytes d ++ 125 :: rest)))))))) := by
        rw [skipWs_cons_ws 10 _ (by rfl)]
        rw [printMembersWith_expand f' d kv ms']
        simp only [quoteStr, List.append_assoc, List.cons_append, List.singleton_append,
          List.nil_append]
        rw [skipWs_append_ws _ _ (indentBytes_ws (d + 1))]
        rw [skipWs_cons_not_ws 34 _ (by rfl)]
      rw [hscrut]
      simp only []
      rw [if_neg (by omega : ¬(34 : Nat) = 125)]
      have hws : parseMembersWith (parseValue fp') (fp' + 1)
          (34 :: (escBody kv.1 ++ (34 :: (58 :: (32 :: (printF f' (d + 1) kv.2 ++
            (membersTail f' d ms' ++ (10 :: (indentBytes d ++ 125 :: rest)))))))))
          = parseMembersWith (parseValue fp') (fp' + 1)
            (printMembersWith (fun y => printF f' (d + 1) y) (d + 1) (kv :: ms') ++
              (10 :: (indentBytes d ++ 125 :: rest))) := by
        rw [printMembersWith_expand f' d kv ms']
        simp only [quoteStr, List.append_assoc, List.cons_append, List.singleton_append,
          List.nil_append]
        exact (parseMembersWith_ws fp' (fp' + 1) (indentBytes (d + 1)) _
          (indentBytes_ws (d + 1))).symm
      rw [hws]
      rw [rtMembers (kv :: ms') f' fp' (fp' + 1) d (indentBytes d) rest
        (by simp) hsz hszp (by omega) (indentBytes_ws d) hrest]
      rfl

theorem rtItems (es : List Json) : ∀ (f fp fl d : Nat) (ind rest : Bytes),
    es ≠ [] → jsizeArr es ≤ f → jsizeArr es ≤ fp → jsizeArr es ≤ fl →
    (∀ c ∈ ind, isWsByte c = true) → headNotDigit rest →
    parseItemsWith (parseValue fp) fl
      (printItemsWith (fun y => printF f (d + 1) y) (d + 1) es ++
        (10 :: (ind ++ 93 :: rest))) =
      some (es, rest) := by
  intro f fp fl d ind rest hne hf hfp hfl hind hrest
  cases es with
  | nil => exact absurd rfl hne
  | cons x xs =>
    obtain ⟨fl', rfl⟩ : ∃ fl', fl = fl' + 1 :=
      ⟨fl - 1, by simp [jsizeArr] at hfl; omega⟩
    have hx : jsize x ≤ f := by simp [jsizeArr] at hf; omega
    have hxp : jsize x ≤ fp := by simp [jsizeArr] at hfp; omega
    rw [parseItemsWith]
    cases xs with
    | nil =>
      have h1 : printItemsWith (fun y => printF f (d + 1) y) (d + 1) [x] ++
          (10 :: (ind ++ 93 :: rest))
          = indentBytes (d + 1) ++ (printF f (d + 1) x ++ (10 :: (ind ++ 93 :: rest))) := by
        simp [printItemsWith]
      rw [h1, parseValue_ws fp _ _ (indentBytes_ws (d + 1))]
      rw [rtVal x f fp (d + 1) _ hx hxp (headNotDigit10 _)]
      simp only []
      rw [skipWs_to_close ind hind 93 (by rfl) rest]
      simp
    | cons y ys =>
      have h1 : printItemsWith (fun y2 => printF f (d + 1) y2) (d + 1) (x :: y :: ys) ++
          (10 :: (ind ++ 93 :: rest))
          = indentBytes (d + 1) ++ (printF f (d + 1) x ++
              (44 :: (10 :: (printItemsWith (fun y2 => printF f (d + 1) y2) (d + 1)
                (y :: ys) ++ (10 :: (ind ++ 93 :: rest)))))) := by
        simp [printItemsWith]
      rw [h1, parseValue_ws fp _ _ (indentBytes_ws (d + 1))]
      rw [rtVal x f fp (d + 1) _ hx hxp (headNotDigit44 _)]
      simp only []
      rw [skipWs_cons_not_ws 44 _ (by rfl)]
      simp only [if_true]
      have h10 : (10 : Nat) :: (printItemsWith (fun y2 => printF f (d + 1) y2) (d + 1)
            (y :: ys) ++ (10 :: (ind ++ 93 :: rest)))
          = [10] ++ (printItemsWith (fun y2 => printF f (d + 1) y2) (d + 1)
            (y :: ys) ++ (10 :: (ind ++ 93 :: rest))) := by
        rfl
      rw [h10, parseItemsWith_ws fp fl' [10] _ (by intro c hc; simp at hc; simp [hc, isWsByte])]
      rw [rtItems (y :: ys) f fp fl' d ind rest (by simp)
        (by simp [jsizeArr] at hf ⊢; omega)
        (by simp [jsizeArr] at hfp ⊢; omega)
        (by simp [jsizeArr] at hfl ⊢; omega)
        hind hrest]
      rfl

theorem rtMembers (ms : List (Bytes × Json)) : ∀ (f fp fl d : Nat) (ind rest : Bytes),
    ms ≠ [] → jsizeObj ms ≤ f → jsizeObj ms ≤ fp → jsizeObj ms ≤ fl →
    (∀ c ∈ ind, isWsByte c = true) → headNotDigit rest →
    parseMembersWith (parseValue fp) fl
      (printMembersWith (fun y => printF f (d + 1) y) (d + 1) ms ++
        (10 :: (ind ++ 125 :: rest))) =
      some (ms, rest) := by
  intro f fp fl d ind rest hne hf hfp hfl hind hrest
  cases ms with
  | nil => exact absurd rfl hne
  | cons kv ms' =>
    obtain ⟨fl', rfl⟩ : ∃ fl', fl = fl' + 1 :=
      ⟨fl - 1, by simp [jsizeObj] at hfl; omega⟩
    have hv : jsize kv.2 ≤ f := by simp [jsizeObj] at hf; omega
    have hvp : jsize kv.2 ≤ fp := by simp [jsizeObj] at hfp; omega
    rw [parseMembersWith]
    cases ms' with
    | nil =>
      have h1 : printMembersWith (fun y => printF f (d + 1) y) (d + 1) [kv] ++
          (10 :: (ind ++ 125 :: rest))
          = indentBytes (d + 1) ++ (34 :: (escBody kv.1 ++ (34 :: (58 :: (32 ::
              (printF f (d + 1) kv.2 ++ (10 :: (ind ++ 125 :: rest)))))))) := by
        obtain ⟨k, v⟩ := kv
        simp [printMembersWith, quoteStr]
      rw [h1]
      rw [skipWs_append_ws _ _ (indentBytes_ws (d + 1))]
      rw [skipWs_cons_not_ws 34 _ (by rfl)]
      simp only [if_true]
      rw [parseStrBody_escBody kv.1 _]
      simp only []
      rw [skipWs_cons_not_ws 58 _ (by rfl)]
      simp only [if_true]
      have h3 : (32 : Nat) :: (printF f (d + 1) kv.2 ++ (10 :: (ind ++ 125 :: rest)))
          = [32] ++ (printF f (d + 1) kv.2 ++ (10 :: (ind ++ 125 :: rest))) := rfl
      rw [h3, parseValue_ws fp _ _ (by intro c hc; simp at hc; simp [hc, isWsByte])]
      rw [rtVal kv.2 f fp (d + 1) _ hv hvp (headNotDigit10 _)]
      simp only []
      rw [skipWs_to_close ind hind 125 (by rfl) rest]
      simp
    | cons kv2 ms'' =>
      have h1 : printMembersWith (fun y => printF f (d + 1) y) (d + 1) (kv :: kv2 :: ms'') ++
          (10 :: (ind ++ 125 :: rest))
          = indentBytes (d + 1) ++ (34 :: (escBody kv.1 ++ (34 :: (58 :: (32 ::
              (printF f (d + 1) kv.2 ++ (44 :: (10 ::
                (printMembersWith (fun y => printF f (d + 1) y) (d + 1) (kv2 :: ms'') ++
                  (10 :: (ind ++ 125 :: rest))))))))))) := by
        obtain ⟨k, v⟩ := kv
        simp [printMembersWith, quoteStr]
      rw [h1]
      rw [skipWs_append_ws _ _ (indentBytes_ws (d + 1))]
      rw [skipWs_cons_not_ws 34 _ (by rfl)]
      simp only [if_true]
      rw [parseStrBody_escBody kv.1 _]
      simp only []
      rw [skipWs_cons_not_ws 58 _ (by rfl)]
      simp only [if_true]
      have h3 : (32 : Nat) :: (printF f (d + 1) kv.2 ++ (44 :: (10 ::
            (printMembersWith (fun y => printF f (d + 1) y) (d + 1) (kv2 :: ms'') ++
              (10 :: (ind ++ 125 :: rest))))))
          = [32] ++ (printF f (d + 1) kv.2 ++ (44 :: (10 ::
            (printMembersWith (fun y => printF f (d + 1) y) (d + 1) (kv2 :: ms'') ++
              (10 :: (ind ++ 125 :: rest)))))) := rfl
      rw [h3, parseValue_ws fp _ _ (by intro c hc; simp at hc; simp [hc, isWsByte])]
      rw [rtVal kv.2 f fp (d + 1) _ hv hvp (headNotDigit44 _)]
      simp only []
      rw [skipWs_cons_not_ws 44 _ (by rfl)]
      simp only [if_true]
      have h10 : (10 : Nat) :: (printMembersWith (fun y => printF f (d + 1) y) (d + 1)
            (kv2 :: ms'') ++ (10 :: (ind ++ 125 :: rest)))
          = [10] ++ (printMembersWith (fun y => printF f (d + 1) y) (d + 1)
            (kv2 :: ms'') ++ (10 :: (ind ++ 125 :: rest))) := rfl
      rw [h10, parseMembersWith_ws fp fl' [10] _
        (by intro c hc; simp at hc; simp [hc, isWsByte])]
      rw [rtMembers (kv2 :: ms'') f fp fl' d ind rest (by simp)
        (by simp [jsizeObj] at hf ⊢; omega)
        (by simp [jsizeObj] at hfp ⊢; omega)
        (by simp [jsizeObj] at hfl ⊢; omega)
        hind hrest]
      rfl
end

/-! ## Parser size bounds: a parsed value's node count is bounded by the
number of consumed input bytes -/

theorem takeDigits_parts : ∀ (s : Bytes),
    (takeDigits s).1.length + (takeDigits s).2.length = s.length := by
  intro s
  induction s with
  | nil => simp [takeDigits]
  | cons c cs ih =>
    by_cases hc : isDigit c = true
    · simp [takeDigits, hc]
      omega
    · simp [takeDigits, hc]

theorem parseNat_length (s : Bytes) (q : Nat × Bytes) (h : parseNat s = some q) :
    q.2.length < s.length := by
  have hparts := takeDigits_parts s
  simp only [parseNat] at h
  by_cases h1 : (takeDigits s).1 = []
  · rw [if_pos h1] at h
    cases h
  · rw [if_neg h1] at h
    by_cases h2 : (takeDigits s).1.head? = some 48 ∧ (takeDigits s).1.length ≠ 1
    · rw [if_pos h2] at h
      cases h
    · rw [if_neg h2] at h
      cases h
      have : 1 ≤ (takeDigits s).1.length := by
        cases hd : (takeDigits s).1 with
        | nil => exact absurd hd h1
        | cons a as => simp [hd]
      simp only []
      omega

theorem parseItemsWith_size (pv : Bytes → Option (Json × Bytes))
    (Hpv : ∀ s v r, pv s = some (v, r) → jsize v + r.length ≤ s.length) :
    ∀ (fl : Nat) (s : Bytes) (vs : List Json) (r : Bytes),
      parseItemsWith pv fl s = some (vs, r) → jsizeArr vs + r.length ≤ s.length := by
  intro fl
  induction fl with
  | zero => intro s vs r hp; cases hp
  | succ fl ih =>
    intro s vs r hp
    rw [parseItemsWith] at hp
    cases hps : pv s with
    | none => rw [hps] at hp; cases hp
    | some q =>
      obtain ⟨v, r1⟩ := q
      rw [hps] at hp
      have hv := Hpv s v r1 hps
      have hsk := skipWs_length r1
      simp only [] at hp
      cases hsw : skipWs r1 with
      | nil => rw [hsw] at hp; cases hp
      | cons c t =>
        rw [hsw] at hp
        rw [hsw] at hsk
        simp only [List.length_cons] at hsk
        dsimp only at hp
        by_cases hc44 : c = 44
        · rw [if_pos hc44] at hp
          cases hrec : parseItemsWith pv fl t with
          | none => rw [hrec] at hp; cases hp
          | some q2 =>
            obtain ⟨vs2, r2⟩ := q2
            rw [hrec] at hp
            simp only [Option.map, Option.some.injEq, Prod.mk.injEq] at hp
            obtain ⟨hvs, hr⟩ := hp
            have := ih t vs2 r2 hrec
            subst hvs
            subst hr
            simp only [jsizeArr]
            omega
        · rw [if_neg hc44] at hp
          by_cases hc93 : c = 93
          · rw [if_pos hc93] at hp
            simp only [Option.some.injEq, Prod.mk.injEq] at hp
            obtain ⟨hvs, hr⟩ := hp
            subst hvs
            subst hr
            simp only [jsizeArr, jsizeArr.eq_1]
            omega
          · rw [if_neg hc93] at hp
            cases hp

theorem parseMembersWith_size (pv : Bytes → Option (Json × Bytes))
    (Hpv : ∀ s v r, pv s = some (v, r) → jsize v + r.length ≤ s.length) :
    ∀ (fl : Nat) (s : Bytes) (ms : List (Bytes × Json)) (r : Bytes),
      parseMembersWith pv fl s = some (ms, r) → jsizeObj ms + r.length ≤ s.length := by
  intro fl
  induction fl with
  | zero => intro s ms r hp; cases hp
  | succ fl ih =>
    intro s ms r hp
    rw [parseMembersWith] at hp
    have hsk := skipWs_length s
    cases hsw : skipWs s with
    | nil => rw [hsw] at hp; cases hp
    | cons c r1 =>
      rw [hsw] at hp
      rw [hsw] at hsk
      simp only [List.length_cons] at hsk
      dsimp only at hp
      by_cases hc : c = 34
      · rw [if_pos hc] at hp
        cases hstr : parseStrBody r1 with
        | none => rw [hstr] at hp; cases hp
        | some q =>
          obtain ⟨k, r2⟩ := q
          rw [hstr] at hp
          have hstrlen := parseStrBody_length r1 (k, r2) hstr
          simp only [] at hstrlen
          have hsk2 := skipWs_length r2
          simp only [] at hp
          cases hsw2 : skipWs r2 with
          | nil => rw [hsw2] at hp; cases hp
          | cons c2 r3 =>
            rw [hsw2] at hp
            rw [hsw2] at hsk2
            simp only [List.length_cons] at hsk2
            dsimp only at hp
            by_cases hc2 : c2 = 58
            · rw [if_pos hc2] at hp
              cases hpv : pv r3 with
              | none => rw [hpv] at hp; cases hp
              | some q2 =>
                obtain ⟨v, r4⟩ := q2
                rw [hpv] at hp
                have hv := Hpv r3 v r4 hpv
                have hsk3 := skipWs_length r4
                simp only [] at hp
                cases hsw3 : skipWs r4 with
                | nil => rw [hsw3] at hp; cases hp
                | cons c3 t =>
                  rw [hsw3] at hp
                  rw [hsw3] at hsk3
                  simp only [List.length_cons] at hsk3
                  dsimp only at hp
                  by_cases hc3 : c3 = 44
                  · rw [if_pos hc3] at hp
                    cases hrec : parseMembersWith pv fl t with
                    | none => rw [hrec] at hp; cases hp
                    | some q3 =>
                      obtain ⟨ms2, r5⟩ := q3
                      rw [hrec] at hp
                      simp only [Option.map, Option.some.injEq, Prod.mk.injEq] at hp
                      obtain ⟨hms, hr⟩ := hp
                      have := ih t ms2 r5 hrec
                      subst hms
                      subst hr
                      simp only [jsizeObj]
                      omega
                  · rw [if_neg hc3] at hp
                    by_cases hc125 : c3 = 125
                    · rw [if_pos hc125] at hp
                      simp only [Option.some.injEq, Prod.mk.injEq] at hp
                      obtain ⟨hms, hr⟩ := hp
                      subst hms
                      subst hr
                      simp only [jsizeObj, jsizeObj.eq_1]
                      omega
                    · rw [if_neg hc125] at hp
                      cases hp
            · rw [if_neg hc2] at hp
              cases hp
      · rw [if_neg hc] at hp
        cases hp

theorem parseValue_size : ∀ (fp : Nat) (s : Bytes) (v : Json) (r : Bytes),
    parseValue fp s = some (v, r) → jsize v + r.length ≤ s.length := by
  intro fp
  induction fp with
  | zero => intro s v r hp; cases hp
  | succ fp ih =>
    intro s v r hp
    rw [parseValue_succ] at hp
    have hsk := skipWs_length s
    cases hsw : skipWs s with
    | nil => rw [hsw] at hp; cases hp
    | cons c t =>
      rw [hsw] at hp
      rw [hsw] at hsk
      simp only [List.length_cons] at hsk
      dsimp only at hp
      by_cases hc : isDigit c = true
      · rw [if_pos hc] at hp
        cases hpn : parseNat (c :: t) with
        | none => rw [hpn] at hp; cases hp
        | some q =>
          obtain ⟨m, r1⟩ := q
          rw [hpn] at hp
          simp only [Option.map, Option.some.injEq, Prod.mk.injEq] at hp
          obtain ⟨hv, hr⟩ := hp
          have hlen := parseNat_length (c :: t) (m, r1) hpn
          simp only [List.length_cons] at hlen
          subst hv
          subst hr
          simp only [jsize]
          omega
      · rw [if_neg hc] at hp
        split at hp
        · -- null
          simp only [Option.some.injEq, Prod.mk.injEq] at hp
          obtain ⟨hv, hr⟩ := hp
          subst hv
          subst hr
          simp only [jsize]
          simp only [List.length_cons] at hsk
          omega
        · -- true
          simp only [Option.some.injEq, Prod.mk.injEq] at hp
          obtain ⟨hv, hr⟩ := hp
          subst hv
          subst hr
          simp only [jsize]
          simp only [List.length_cons] at hsk
          omega
        · -- false
          simp only [Option.some.injEq, Prod.mk.injEq] at hp
          obtain ⟨hv, hr⟩ := hp
          subst hv
          subst hr
          simp only [jsize]
          simp only [List.length_cons] at hsk
          omega
        · -- string
          cases hstr : parseStrBody t with
          | none => rw [hstr] at hp; cases hp
          | some q =>
            obtain ⟨sv, r1⟩ := q
            rw [hstr] at hp
            simp only [Option.map, Option.some.injEq, Prod.mk.injEq] at hp
            obtain ⟨hv, hr⟩ := hp
            have hlen := parseStrBody_length t (sv, r1) hstr
            simp only [] at hlen
            subst hv
            subst hr
            simp only [jsize]
            omega
        · -- negative number
          cases hpn : parseNat t with
          | none => rw [hpn] at hp; cases hp
          | some q =>
            obtain ⟨m, r1⟩ := q
            rw [hpn] at hp
            simp only [Option.map, Option.some.injEq, Prod.mk.injEq] at hp
            obtain ⟨hv, hr⟩ := hp
            have hlen := parseNat_length t (m, r1) hpn
            simp only [] at hlen
            subst hv
            subst hr
            simp only [jsize]
            omega
        · -- array
          have hsk2 := skipWs_length t
          cases hsw2 : skipWs t with
          | nil => rw [hsw2] at hp; cases hp
          | cons c2 r3 =>
            rw [hsw2] at hp
            rw [hsw2] at hsk2
            simp only [List.length_cons] at hsk2
            dsimp only at hp
            by_cases hc93 : c2 = 93
            · rw [if_pos hc93] at hp
              simp only [Option.some.injEq, Prod.mk.injEq] at hp
              obtain ⟨hv, hr⟩ := hp
              subst hv
              subst hr
              simp only [jsize, jsizeArr]
              omega
            · rw [if_neg hc93] at hp
              cases hits : parseItemsWith (parseValue fp) (fp + 1) (c2 :: r3) with
              | none => rw [hits] at hp; cases hp
              | some q =>
                obtain ⟨vs, r1⟩ := q
                rw [hits] at hp
                simp only [Option.map, Option.some.injEq, Prod.mk.injEq] at hp
                obtain ⟨hv, hr⟩ := hp
                have := parseItemsWith_size (parseValue fp) ih (fp + 1) (c2 :: r3) vs r1 hits
                simp only [List.length_cons] at this
                subst hv
                subst hr
                simp only [jsize]
                omega
        · -- object
          have hsk2 := skipWs_length t
          cases hsw2 : skipWs t with
          | nil => rw [hsw2] at hp; cases hp
          | cons c2 r3 =>
            rw [hsw2] at hp
            rw [hsw2] at hsk2
            simp only [List.length_cons] at hsk2
            dsimp only at hp
            by_cases hc125 : c2 = 125
            · rw [if_pos hc125] at hp
              simp only [Option.some.injEq, Prod.mk.injEq] at hp
              obtain ⟨hv, hr⟩ := hp
              subst hv
              subst hr
              simp only [jsize, jsizeObj]
              omega
            · rw [if_neg hc125] at hp
              cases hms : parseMembersWith (parseValue fp) (fp + 1) (c2 :: r3) with
              | none => rw [hms] at hp; cases hp
              | some q =>
                obtain ⟨ms, r1⟩ := q
                rw [hms] at hp
                simp only [Option.map, Option.some.injEq, Prod.mk.injEq] at hp
                obtain ⟨hv, hr⟩ := hp
                have := parseMembersWith_size (parseValue fp) ih (fp + 1) (c2 :: r3) ms r1 hms
                simp only [List.length_cons] at this
                subst hv
                subst hr
                simp only [jsize]
                omega
        · -- fall-through
          cases hp

/-! ## Printed length bounds -/

theorem intPrint_ne_nil (n : Int) : intPrint n ≠ [] := by
  by_cases hneg : n < 0
  · simp [intPrint, hneg]
  · simp only [intPrint, if_neg hneg, natPrint]
    exact natPrintF_ne_nil (n.natAbs + 1) n.natAbs (by omega)

mutual
theorem printF_length (v : Json) : ∀ (f d : Nat), jsize v ≤ f →
    jsize v ≤ (printF f d v).length := by
  intro f d hf
  obtain ⟨f', rfl⟩ : ∃ f', f = f' + 1 := ⟨f - 1, by have := jsize_pos v; omega⟩
  cases v with
  | null => simp [printF, jsize]
  | bool b => cases b <;> simp [printF, jsize]
  | num n =>
    have := intPrint_ne_nil n
    have : 1 ≤ (intPrint n).length := by
      cases hi : intPrint n with
      | nil => exact absurd hi this
      | cons a as => simp
    simp only [printF, jsize]
    omega
  | str s => simp [printF, jsize, quoteStr]
  | arr es =>
    cases es with
    | nil => simp [printF, jsize, jsizeArr]
    | cons x xs =>
      have hsz : jsizeArr (x :: xs) ≤ f' := by simp only [jsize] at hf; omega
      have hit := printItems_length (x :: xs) f' d (by simp) hsz
      simp only [printF, jsize, List.length_cons, List.length_append]
      omega
  | obj ms =>
    cases ms with
    | nil => simp [printF, jsize, jsizeObj]
    | cons kv ms' =>
      have hsz : jsizeObj (kv :: ms') ≤ f' := by simp only [jsize] at hf; omega
      have hit := printMembers_length (kv :: ms') f' d (by simp) hsz
      simp only [printF, jsize, List.length_cons, List.length_append]
      omega

theorem printItems_length (es : List Json) : ∀ (f d : Nat), es ≠ [] →
    jsizeArr es ≤ f →
    jsizeArr es ≤ (printItemsWith (fun y => printF f (d + 1) y) (d + 1) es).length := by
  intro f d hne hf
  cases es with
  | nil => exact absurd rfl hne
  | cons x xs =>
    have hx : jsize x ≤ f := by simp [jsizeArr] at hf; omega
    have hlx := printF_length x f (d + 1) hx
    cases xs with
    | nil =>
      simp only [printItemsWith, jsizeArr, jsizeArr.eq_1, List.length_append,
        indentBytes, List.length_replicate]
      omega
    | cons y ys =>
      have hys : jsizeArr (y :: ys) ≤ f := by simp [jsizeArr] at hf ⊢; omega
      have hrec := printItems_length (y :: ys) f d (by simp) hys
      simp only [printItemsWith, jsizeArr, List.length_append, List.length_cons,
        indentBytes, List.length_replicate] at hrec ⊢
      omega

theorem printMembers_length (ms : List (Bytes × Json)) : ∀ (f d : Nat), ms ≠ [] →
    jsizeObj ms ≤ f →
    jsizeObj ms ≤ (printMembersWith (fun y => printF f (d + 1) y) (d + 1) ms).length := by
  intro f d hne hf
  cases ms with
  | nil => exact absurd rfl hne
  | cons kv ms' =>
    have hv : jsize kv.2 ≤ f := by simp [jsizeObj] at hf; omega
    have hlv := printF_length kv.2 f (d + 1) hv
    cases ms' with
    | nil =>
      obtain ⟨k, v⟩ := kv
      simp only [printMembersWith, jsizeObj, jsizeObj.eq_1, List.length_append,
        List.length_cons, indentBytes, List.length_replicate, quoteStr] at hlv ⊢
      omega
    | cons kv2 ms'' =>
      have hms : jsizeObj (kv2 :: ms'') ≤ f := by simp [jsizeObj] at hf ⊢; omega
      have hrec := printMembers_length (kv2 :: ms'') f d (by simp) hms
      obtain ⟨k, v⟩ := kv
      simp only [printMembersWith, jsizeObj, List.length_append, List.length_cons,
        indentBytes, List.length_replicate, quoteStr] at hlv hrec ⊢
      omega
end

/-! ## The normalizer round trip -/

theorem jsonParse_printF (v : Json) (f : Nat) (hf : jsize v ≤ f) :
    jsonParse (printF f 0 v) = some v := by
  have hlen := printF_length v f 0 hf
  have hrt := rtVal v f ((printF f 0 v).length + 1) 0 [] hf (by omega) headNotDigit_nil
  rw [List.append_nil] at hrt
  rw [jsonParse, hrt]
  rfl

theorem jsonParse_size (data : Bytes) (v : Json) (h : jsonParse data = some v) :
    jsize v ≤ data.length + 1 := by
  rw [jsonParse] at h
  cases hp : parseValue (data.length + 1) data with
  | none => rw [hp] at h; cases h
  | some q =>
    obtain ⟨v2, rest⟩ := q
    rw [hp] at h
    dsimp only at h
    have := parseValue_size (data.length + 1) data v2 rest hp
    by_cases hr : skipWs rest = []
    · rw [if_pos hr] at h
      cases h
      omega
    · rw [if_neg hr] at h
      cases h

/-- The JSON Normalizer is value-preserving: if the input parses, the
normalized output still parses, to the same value. -/
theorem normalizeJson_roundtrip (data : Bytes) (v : Json) (h : jsonParse data = some v) :
    normalizeJson data = printF (data.length + 1) 0 v ∧
      jsonParse (normalizeJson data) = some v := by
  have hsize := jsonParse_size data v h
  constructor
  · rw [normalizeJson, h]
  · rw [normalizeJson, h]
    exact jsonParse_printF v (data.length + 1) hsize

/-- On parse failure the normalizer hands back the buffer unchanged. -/
theorem normalizeJson_fallback (data : Bytes) (h : jsonParse data = none) :
    normalizeJson data = data := by
  rw [normalizeJson, h]

/-! ## Filesystem lemmas -/

theorem FS.lookup_write_self (fs : FS) (p v : Bytes) :
    (fs.write p v).lookup p = some v := by
  induction fs with
  | nil => simp [FS.write, FS.lookup]
  | cons qw fs ih =>
    obtain ⟨q, w⟩ := qw
    by_cases hq : q = p
    · simp [FS.write, FS.lookup, hq]
    · simp [FS.write, FS.lookup, hq, ih]

theorem FS.lookup_write_ne (fs : FS) (p q v : Bytes) (h : q ≠ p) :
    (fs.write p v).lookup q = fs.lookup q := by
  induction fs with
  | nil =>
    simp only [FS.write, FS.lookup]
    rw [if_neg (fun hh => h hh.symm)]
  | cons entry fs ih =>
    obtain ⟨r, w⟩ := entry
    by_cases hr : r = p
    · subst hr
      have hrq : ¬r = q := fun hh => h hh.symm
      simp only [FS.write, if_pos rfl, FS.lookup, if_neg hrq]
    · simp only [FS.write, if_neg hr, FS.lookup]
      by_cases hrq : r = q
      · simp [hrq]
      · simp [hrq, ih]

/-! ## Path prefix lemmas -/

theorem bytesLe_iff : ∀ (a b : Bytes), bytesLe a b = true ↔ ∃ t, b = a ++ t := by
  intro a
  induction a with
  | nil =>
    intro b
    simp [bytesLe]
  | cons x xs ih =>
    intro b
    cases b with
    | nil =>
      simp [bytesLe]
    | cons y ys =>
      simp only [bytesLe, Bool.and_eq_true, beq_iff_eq, ih ys]
      constructor
      · rintro ⟨rfl, t, rfl⟩
        exact ⟨t, rfl⟩
      · rintro ⟨t, ht⟩
        simp only [List.cons_append, List.cons.injEq] at ht
        exact ⟨ht.1.symm, t, ht.2⟩

theorem bytesLe_append (a t : Bytes) : bytesLe a (a ++ t) = true :=
  (bytesLe_iff a (a ++ t)).2 ⟨t, rfl⟩

theorem bytesLe_total : ∀ (a b c : Bytes), bytesLe a c = true →
    bytesLe b c = true → bytesLe a b = true ∨ bytesLe b a = true := by
  intro a
  induction a with
  | nil =>
    intro b c _ _
    left
    rfl
  | cons x xs ih =>
    intro b c ha hb
    cases b with
    | nil =>
      right
      rfl
    | cons y ys =>
      cases c with
      | nil => simp [bytesLe] at ha
      | cons z zs =>
        simp only [bytesLe, Bool.and_eq_true, beq_iff_eq] at ha hb
        obtain ⟨rfl, ha2⟩ := ha
        obtain ⟨rfl, hb2⟩ := hb
        rcases ih ys zs ha2 hb2 with h | h
        · left
          simp [bytesLe, h]
        · right
          simp [bytesLe, h]

theorem underRoot_iff (root p : Bytes) :
    underRoot root p = true ↔ p = root ∨ ∃ t, p = (root ++ [47]) ++ t := by
  simp only [underRoot, Bool.or_eq_true, beq_iff_eq, bytesLe_iff]

theorem underRoot_join (root q : Bytes) (hq : q.head? ≠ some 47) :
    underRoot root (joinPath root q) = true := by
  rw [joinPath, if_neg hq, underRoot_iff]
  exact Or.inr ⟨q, by simp⟩

theorem bytesLe_snoc47 : ∀ (a b : Bytes), bytesLe (a ++ [47]) (b ++ [47]) = true →
    a = b ∨ bytesLe (a ++ [47]) b = true := by
  intro a
  induction a with
  | nil =>
    intro b h
    cases b with
    | nil => exact Or.inl rfl
    | cons y ys =>
      simp only [List.nil_append, List.cons_append, bytesLe, Bool.and_eq_true,
        beq_iff_eq] at h
      right
      simp [bytesLe, h.1.symm]
  | cons x xs ih =>
    intro b h
    cases b with
    | nil =>
      exfalso
      simp only [List.cons_append, List.nil_append, bytesLe, Bool.and_eq_true,
        List.append_eq] at h
      have hfalse : bytesLe (xs ++ [47]) [] = false := by
        cases xs <;> rfl
      rw [hfalse] at h
      exact absurd h.2 (by simp)
    | cons y ys =>
      simp only [List.cons_append, bytesLe, Bool.and_eq_true, beq_iff_eq] at h
      obtain ⟨rfl, h2⟩ := h
      rcases ih ys h2 with rfl | hle
      · exact Or.inl rfl
      · right
        simp [bytesLe, hle]

theorem not_under_join (pack out : Bytes) (hpo : underRoot pack out = false)
    (hop : underRoot out pack = false) (q : Bytes) (hq : q.head? ≠ some 47) :
    underRoot pack (joinPath out q) = false := by
  rw [Bool.eq_false_iff]
  intro htrue
  rw [joinPath, if_neg hq] at htrue
  have hj : (out ++ 47 :: q) = (out ++ [47]) ++ q := by simp
  rw [hj, underRoot_iff] at htrue
  rcases htrue with hp | ⟨t, hp⟩
  · have : underRoot out pack = true := by
      rw [underRoot_iff]
      exact Or.inr ⟨q, hp.symm⟩
    rw [this] at hop
    cases hop
  · have h1 : bytesLe (pack ++ [47]) ((out ++ [47]) ++ (q ++ [47])) = true := by
      rw [bytesLe_iff]
      refine ⟨t ++ [47], ?_⟩
      have hstep : (out ++ [47]) ++ (q ++ [47]) = ((out ++ [47]) ++ q) ++ [47] := by
        simp
      rw [hstep, hp]
      simp
    have h2 : bytesLe (out ++ [47]) ((out ++ [47]) ++ (q ++ [47])) = true :=
      bytesLe_append _ _
    rcases bytesLe_total _ _ _ h1 h2 with hle | hle
    · rcases bytesLe_snoc47 pack out hle with rfl | hle2
      · have : underRoot pack pack = true := by
          rw [underRoot_iff]
          exact Or.inl rfl
        rw [this] at hpo
        cases hpo
      · have : underRoot pack out = true := by
          simp [underRoot, hle2]
        rw [this] at hpo
        cases hpo
    · rcases bytesLe_snoc47 out pack hle with rfl | hle2
      · have : underRoot out out = true := by
          rw [underRoot_iff]
          exact Or.inl rfl
        rw [this] at hop
        cases hop
      · have : underRoot out pack = true := by
          simp [underRoot, hle2]
        rw [this] at hop
        cases hop

/-! ## Frame lemmas: what the pipeline writes -/

theorem processEntry_fs (E : Bytes → Bytes → Bytes) (pack out : Bytes) (fs : FS)
    (e : ContentEntry) (p : Bytes) (hp : p ≠ joinPath out e.path) :
    ((processEntry E pack out fs e).fs).lookup p = fs.lookup p := by
  simp only [processEntry]
  cases hlook : fs.lookup (joinPath pack e.path) with
  | none => rfl
  | some data =>
    cases hkey : e.key with
    | none =>
      by_cases hio : joinPath pack e.path = joinPath out e.path
      · simp only [if_pos hio]
        rfl
      · simp only [if_neg hio]
        by_cases hj : endsWithJson e.path
        · simp only [hj, if_true, RunResult.fs]
          exact FS.lookup_write_ne fs _ p _ hp
        · simp only [hj, Bool.false_eq_true, if_false, RunResult.fs]
          exact FS.lookup_write_ne fs _ p _ hp
    | some k =>
      by_cases hlen : k.length < 16
      · simp only [if_pos hlen]
        rfl
      · simp only [if_neg hlen]
        cases hnew : newFromSlices k (k.take 16) with
        | none => rfl
        | some dec =>
          by_cases hj : endsWithJson e.path
          · simp only [hj, if_true, RunResult.fs]
            exact FS.lookup_write_ne fs _ p _ hp
          · simp only [hj, Bool.false_eq_true, if_false, RunResult.fs]
            exact FS.lookup_write_ne fs _ p _ hp

theorem processEntries_fs (E : Bytes → Bytes → Bytes) (pack out : Bytes) :
    ∀ (entries : List ContentEntry) (fs : FS) (p : Bytes),
      (∀ e ∈ entries, p ≠ joinPath out e.path) →
      ((processEntries E pack out fs entries).fs).lookup p = fs.lookup p := by
  intro entries
  induction entries with
  | nil => intro fs p _; rfl
  | cons e es ih =>
    intro fs p hp
    have hpe : p ≠ joinPath out e.path := hp e (by simp)
    have hstep := processEntry_fs E pack out fs e p hpe
    rw [processEntries]
    cases hres : processEntry E pack out fs e with
    | ok fs2 =>
      rw [hres] at hstep
      simp only [RunResult.fs] at hstep
      rw [ih fs2 p (fun e2 he2 => hp e2 (by simp [he2]))]
      exact hstep
    | err er fs2 =>
      rw [hres] at hstep
      exact hstep
    | panic fs2 =>
      rw [hres] at hstep
      exact hstep

theorem manifestName_head : manifestName.head? ≠ some 47 := by decide

theorem iconName_head : iconName.head? ≠ some 47 := by decide

theorem contentsName_head : contentsName.head? ≠ some 47 := by decide

theorem joinPath_names_ne (out : Bytes) :
    joinPath out manifestName ≠ joinPath out iconName := by
  rw [joinPath, if_neg manifestName_head, joinPath, if_neg iconName_head]
  intro h
  have h2 := List.append_cancel_left h
  cases h2

theorem newFromSlices_ok (key : Bytes) (hk : key.length = 32) :
    newFromSlices key (key.take 16) = some ⟨key, key.take 16⟩ := by
  rw [newFromSlices, if_pos ⟨hk, by simp [List.length_take, hk]⟩]

theorem take32_eq (key : Bytes) (hk : key.length = 32) : key.take 32 = key := by
  rw [← hk]
  exact List.take_length key

theorem internal_decrypt_unfold (E : Bytes → Bytes → Bytes) (key pack out : Bytes)
    (fs : FS) (m i raw : Bytes)
    (hm : fs.lookup (joinPath pack manifestName) = some m)
    (hi : fs.lookup (joinPath pack iconName) = some i)
    (hraw : fs.lookup (joinPath pack contentsName) = some raw)
    (hne1 : joinPath out manifestName ≠ joinPath pack iconName)
    (hne2 : joinPath out manifestName ≠ joinPath pack contentsName)
    (hne3 : joinPath out iconName ≠ joinPath pack contentsName)
    (hk : key.length = 32) :
    internal_decrypt E key pack out fs =
      match (jsonParse ((Aes256Cfb8Dec.mk key (key.take 16)).decrypt E
          (raw.drop 256))).bind decodeContent with
      | none => .err .decodeError (sidecarWrites out fs m i)
      | some entries => processEntries E pack out (sidecarWrites out fs m i) entries := by
  have hi2 : (fs.write (joinPath out manifestName) m).lookup (joinPath pack iconName)
      = some i := by
    rw [FS.lookup_write_ne _ _ _ _ (fun hh => hne1 hh.symm)]
    exact hi
  have hraw2 : ((fs.write (joinPath out manifestName) m).write
        (joinPath out iconName) i).lookup (joinPath pack contentsName) = some raw := by
    rw [FS.lookup_write_ne _ _ _ _ (fun hh => hne3 hh.symm),
      FS.lookup_write_ne _ _ _ _ (fun hh => hne2 hh.symm)]
    exact hraw
  simp only [internal_decrypt, hm, hi2, hraw2]
  rw [if_neg (show ¬key.length < 16 by omega)]
  rw [newFromSlices_ok key hk]
  rfl

theorem indexEntriesOf_unfold (E : Bytes → Bytes → Bytes) (key pack out : Bytes)
    (fs : FS) (m i raw : Bytes)
    (hm : fs.lookup (joinPath pack manifestName) = some m)
    (hi : fs.lookup (joinPath pack iconName) = some i)
    (hraw : fs.lookup (joinPath pack contentsName) = some raw)
    (hne1 : joinPath out manifestName ≠ joinPath pack iconName)
    (hne2 : joinPath out manifestName ≠ joinPath pack contentsName)
    (hne3 : joinPath out iconName ≠ joinPath pack contentsName)
    (hk : key.length = 32) :
    indexEntriesOf E key pack out fs =
      (jsonParse ((Aes256Cfb8Dec.mk key (key.take 16)).decrypt E
          (raw.drop 256))).bind decodeContent := by
  have hi2 : (fs.write (joinPath out manifestName) m).lookup (joinPath pack iconName)
      = some i := by
    rw [FS.lookup_write_ne _ _ _ _ (fun hh => hne1 hh.symm)]
    exact hi
  have hraw2 : ((fs.write (joinPath out manifestName) m).write
        (joinPath out iconName) i).lookup (joinPath pack contentsName) = some raw := by
    rw [FS.lookup_write_ne _ _ _ _ (fun hh => hne3 hh.symm),
      FS.lookup_write_ne _ _ _ _ (fun hh => hne2 hh.symm)]
    exact hraw
  simp only [indexEntriesOf, hm, hi2, hraw2]
  rw [newFromSlices_ok key hk]

/-! ## The claims -/

/-- Claim C2: if `contents.json` is shorter than 256 bytes, the run fails
with a decode error (seeking past EOF yields an empty payload, which does
not parse), and the final filesystem is the initial one plus exactly the
two verbatim sidecar copies — no other file is created. -/
theorem claim_C2 (E : Bytes → Bytes → Bytes) (key pack out : Bytes) (fs : FS)
    (m i raw : Bytes)
    (hm : fs.lookup (joinPath pack manifestName) = some m)
    (hi : fs.lookup (joinPath pack iconName) = some i)
    (hraw : fs.lookup (joinPath pack contentsName) = some raw)
    (hne1 : joinPath out manifestName ≠ joinPath pack iconName)
    (hne2 : joinPath out manifestName ≠ joinPath pack contentsName)
    (hne3 : joinPath out iconName ≠ joinPath pack contentsName)
    (hlen : raw.length < 256)
    (hkey : key.length = 32) :
    internal_decrypt E key pack out fs = .err .decodeError (sidecarWrites out fs m i) := by
  rw [internal_decrypt_unfold E key pack out fs m i raw hm hi hraw hne1 hne2 hne3 hkey]
  rw [List.drop_eq_nil_of_le (by omega)]
  rfl

theorem claim_C2_witness :
    internal_decrypt wE wKey wPack wOut wFsC2 =
      .err .decodeError (sidecarWrites wOut wFsC2 [1] [2]) :=
  claim_C2 wE wKey wPack wOut wFsC2 [1] [2] (List.replicate 100 7)
    (by rfl) (by rfl) (by rfl) (by decide) (by decide) (by decide) (by decide) (by rfl)

/-- Claim C4: `new_from_slices` fails for every key slice that is not
exactly 32 bytes or IV slice that is not exactly 16 bytes; in particular,
a master key whose length is not 32 makes the run panic right after the
sidecar copies, before any index-derived output is produced. -/
theorem claim_C4 (E : Bytes → Bytes → Bytes) (key pack out : Bytes) (fs : FS)
    (m i raw : Bytes)
    (hm : fs.lookup (joinPath pack manifestName) = some m)
    (hi : fs.lookup (joinPath pack iconName) = some i)
    (hraw : fs.lookup (joinPath pack contentsName) = some raw)
    (hne1 : joinPath out manifestName ≠ joinPath pack iconName)
    (hne2 : joinPath out manifestName ≠ joinPath pack contentsName)
    (hne3 : joinPath out iconName ≠ joinPath pack contentsName)
    (hklen : key.length ≠ 32) :
    (∀ (k2 iv2 : Bytes), k2.length ≠ 32 ∨ iv2.length ≠ 16 →
        newFromSlices k2 iv2 = none) ∧
    internal_decrypt E key pack out fs = .panic (sidecarWrites out fs m i) := by
  constructor
  · intro k2 iv2 h
    rw [newFromSlices, if_neg]
    rintro ⟨h1, h2⟩
    rcases h with h | h
    · exact h h1
    · exact h h2
  · have hi2 : (fs.write (joinPath out manifestName) m).lookup (joinPath pack iconName)
        = some i := by
      rw [FS.lookup_write_ne _ _ _ _ (fun hh => hne1 hh.symm)]
      exact hi
    have hraw2 : ((fs.write (joinPath out manifestName) m).write
          (joinPath out iconName) i).lookup (joinPath pack contentsName) = some raw := by
      rw [FS.lookup_write_ne _ _ _ _ (fun hh => hne3 hh.symm),
        FS.lookup_write_ne _ _ _ _ (fun hh => hne2 hh.symm)]
      exact hraw
    by_cases hlt : key.length < 16
    · simp only [internal_decrypt, hm, hi2, hraw2, if_pos hlt]
      rfl
    · have hnone : newFromSlices key (key.take 16) = none := by
        rw [newFromSlices, if_neg]
        rintro ⟨h1, _⟩
        exact hklen h1
      simp only [internal_decrypt, hm, hi2, hraw2, if_neg hlt, hnone]
      rfl

theorem claim_C4_witness :
    (∀ (k2 iv2 : Bytes), k2.length ≠ 32 ∨ iv2.length ≠ 16 →
        newFromSlices k2 iv2 = none) ∧
    internal_decrypt wE wKey33 wPack wOut wFsC2 =
      .panic (sidecarWrites wOut wFsC2 [1] [2]) :=
  claim_C4 wE wKey33 wPack wOut wFsC2 [1] [2] (List.replicate 100 7)
    (by rfl) (by rfl) (by rfl) (by decide) (by decide) (by decide) (by decide)

/-- Claim C5: an entry whose source path does not exist as a regular file
is skipped entirely: processing it leaves the filesystem unchanged and
produces no error, and the run continues with the remaining entries. -/
theorem claim_C5 (E : Bytes → Bytes → Bytes) (pack out : Bytes) (fs : FS)
    (e : ContentEntry) (es : List ContentEntry)
    (hmiss : fs.lookup (joinPath pack e.path) = none) :
    processEntry E pack out fs e = .ok fs ∧
    processEntries E pack out fs (e :: es) = processEntries E pack out fs es := by
  have h1 : processEntry E pack out fs e = .ok fs := by
    simp only [processEntry, hmiss]
  refine ⟨h1, ?_⟩
  rw [processEntries, h1]

theorem claim_C5_witness :
    processEntry wE wPack wOut wFsC2 ⟨strBytes "missing.bin", none⟩ = .ok wFsC2 ∧
    processEntries wE wPack wOut wFsC2 [⟨strBytes "missing.bin", none⟩] =
      processEntries wE wPack wOut wFsC2 [] :=
  claim_C5 wE wPack wOut wFsC2 ⟨strBytes "missing.bin", none⟩ [] (by rfl)

/-- Claim C7: the two sidecar files are copied byte-for-byte verbatim
into the output root (no decryption, no normalization — the copied bytes
are exactly the source bytes), and this happens before the index is
touched: if `contents.json` is missing the run fails *after* both copies,
and when the index decodes, the rest of the run is exactly the entry
loop started from the sidecar-copied state. -/
theorem claim_C7 (E : Bytes → Bytes → Bytes) (key pack out : Bytes) (fs : FS)
    (m i : Bytes)
    (hm : fs.lookup (joinPath pack manifestName) = some m)
    (hi : fs.lookup (joinPath pack iconName) = some i)
    (hne1 : joinPath out manifestName ≠ joinPath pack iconName) :
    ((sidecarWrites out fs m i).lookup (joinPath out manifestName) = some m ∧
     (sidecarWrites out fs m i).lookup (joinPath out iconName) = some i) ∧
    (((fs.write (joinPath out manifestName) m).write (joinPath out iconName) i).lookup
        (joinPath pack contentsName) = none →
      internal_decrypt E key pack out fs = .err .ioError (sidecarWrites out fs m i)) ∧
    (∀ (raw : Bytes) (entries : List ContentEntry),
      ((fs.write (joinPath out manifestName) m).write (joinPath out iconName) i).lookup
          (joinPath pack contentsName) = some raw →
      key.length = 32 →
      (jsonParse ((Aes256Cfb8Dec.mk key (key.take 16)).decrypt E (raw.drop 256))).bind
          decodeContent = some entries →
      internal_decrypt E key pack out fs =
        processEntries E pack out (sidecarWrites out fs m i) entries) := by
  have hi2 : (fs.write (joinPath out manifestName) m).lookup (joinPath pack iconName)
      = some i := by
    rw [FS.lookup_write_ne _ _ _ _ (fun hh => hne1 hh.symm)]
    exact hi
  refine ⟨⟨?_, ?_⟩, ?_, ?_⟩
  · rw [sidecarWrites, FS.lookup_write_ne _ _ _ _ (joinPath_names_ne out),
      FS.lookup_write_self]
  · rw [sidecarWrites, FS.lookup_write_self]
  · intro hnone
    simp only [internal_decrypt, hm, hi2, hnone]
    rfl
  · intro raw entries hraw hk hdec
    simp only [internal_decrypt, hm, hi2, hraw]
    rw [if_neg (show ¬key.length < 16 by omega)]
    rw [newFromSlices_ok key hk]
    dsimp only
    rw [hdec]
    rfl

theorem claim_C7_witness :
    ((sidecarWrites wOut wFsC7 [1, 2, 3] [4, 5]).lookup (joinPath wOut manifestName) =
        some [1, 2, 3] ∧
     (sidecarWrites wOut wFsC7 [1, 2, 3] [4, 5]).lookup (joinPath wOut iconName) =
        some [4, 5]) ∧
    (((wFsC7.write (joinPath wOut manifestName) [1, 2, 3]).write
        (joinPath wOut iconName) [4, 5]).lookup (joinPath wPack contentsName) = none →
      internal_decrypt wE wKey wPack wOut wFsC7 =
        .err .ioError (sidecarWrites wOut wFsC7 [1, 2, 3] [4, 5])) ∧
    (∀ (raw : Bytes) (entries : List ContentEntry),
      ((wFsC7.write (joinPath wOut manifestName) [1, 2, 3]).write
          (joinPath wOut iconName) [4, 5]).lookup (joinPath wPack contentsName) = some raw →
      wKey.length = 32 →
      (jsonParse ((Aes256Cfb8Dec.mk wKey (wKey.take 16)).decrypt wE (raw.drop 256))).bind
          decodeContent = some entries →
      internal_decrypt wE wKey wPack wOut wFsC7 =
        processEntries wE wPack wOut (sidecarWrites wOut wFsC7 [1, 2, 3] [4, 5]) entries) :=
  claim_C7 wE wKey wPack wOut wFsC7 [1, 2, 3] [4, 5] (by rfl) (by rfl) (by decide)

/-- Claim C3: an entry whose path ends in `.json` but whose (possibly
decrypted) bytes fail JSON parsing is written verbatim with no error;
by contrast, an index payload that fails JSON parsing aborts the whole
run with a decode error. -/
theorem claim_C3 (E : Bytes → Bytes → Bytes) (pack out : Bytes)
    (fsA : FS) (eA : ContentEntry) (dataA : Bytes)
    (hA1 : fsA.lookup (joinPath pack eA.path) = some dataA)
    (hA2 : eA.key = none)
    (hA3 : joinPath pack eA.path ≠ joinPath out eA.path)
    (hA4 : endsWithJson eA.path = true)
    (hA5 : jsonParse dataA = none)
    (fsB : FS) (eB : ContentEntry) (dataB kB : Bytes)
    (hB1 : fsB.lookup (joinPath pack eB.path) = some dataB)
    (hB2 : eB.key = some kB)
    (hB3 : kB.length = 32)
    (hB4 : endsWithJson eB.path = true)
    (hB5 : jsonParse ((Aes256Cfb8Dec.mk kB (kB.take 16)).decrypt E dataB) = none)
    (key : Bytes) (fsC : FS) (m i raw : Bytes)
    (hC1 : fsC.lookup (joinPath pack manifestName) = some m)
    (hC2 : fsC.lookup (joinPath pack iconName) = some i)
    (hC3 : fsC.lookup (joinPath pack contentsName) = some raw)
    (hC4 : joinPath out manifestName ≠ joinPath pack iconName)
    (hC5 : joinPath out manifestName ≠ joinPath pack contentsName)
    (hC6 : joinPath out iconName ≠ joinPath pack contentsName)
    (hC7 : key.length = 32)
    (hC8 : jsonParse ((Aes256Cfb8Dec.mk key (key.take 16)).decrypt E (raw.drop 256)) = none) :
    processEntry E pack out fsA eA = .ok (fsA.write (joinPath out eA.path) dataA) ∧
    processEntry E pack out fsB eB =
      .ok (fsB.write (joinPath out eB.path)
        ((Aes256Cfb8Dec.mk kB (kB.take 16)).decrypt E dataB)) ∧
    internal_decrypt E key pack out fsC = .err .decodeError (sidecarWrites out fsC m i) := by
  refine ⟨?_, ?_, ?_⟩
  · simp only [processEntry, hA1, hA2, if_neg hA3, hA4, if_true]
    rw [normalizeJson_fallback dataA hA5]
  · simp only [processEntry, hB1, hB2]
    rw [if_neg (show ¬kB.length < 16 by omega), newFromSlices_ok kB hB3]
    dsimp only
    simp only [hB4, if_true]
    rw [normalizeJson_fallback _ hB5]
  · rw [internal_decrypt_unfold E key pack out fsC m i raw hC1 hC2 hC3 hC4 hC5 hC6 hC7]
    rw [hC8]
    rfl

theorem claim_C3_witness :
    processEntry wE wPack wOut wFsC3a ⟨strBytes "a.json", none⟩ =
      .ok (wFsC3a.write (joinPath wOut (strBytes "a.json")) (strBytes "\x7boops")) ∧
    processEntry wE wPack wOut wFsC3b ⟨strBytes "b.json", some wKey⟩ =
      .ok (wFsC3b.write (joinPath wOut (strBytes "b.json"))
        ((Aes256Cfb8Dec.mk wKey (wKey.take 16)).decrypt wE (strBytes "\x7boops"))) ∧
    internal_decrypt wE wKey wPack wOut wFsC3c =
      .err .decodeError (sidecarWrites wOut wFsC3c [1] [2]) :=
  claim_C3 wE wPack wOut
    wFsC3a ⟨strBytes "a.json", none⟩ (strBytes "\x7boops")
    (by rfl) (by rfl) (by decide) (by rfl) (by rfl)
    wFsC3b ⟨strBytes "b.json", some wKey⟩ (strBytes "\x7boops") wKey
    (by rfl) (by rfl) (by rfl) (by rfl) (by rfl)
    wKey wFsC3c [1] [2] (List.replicate 256 0 ++ strBytes "notjson")
    (by rfl) (by rfl) (by rfl) (by decide) (by decide) (by decide) (by rfl) (by rfl)

/-- Claim C6: when a `.json`-suffixed entry's (possibly decrypted) bytes
parse as JSON, the bytes written are themselves valid JSON and parse to
the same value as the input (normalization preserves the value); a
keyless entry whose path is not `.json`-suffixed is copied byte-for-byte. -/
theorem claim_C6 (E : Bytes → Bytes → Bytes) (pack out : Bytes)
    (fsA : FS) (eA : ContentEntry) (dataA : Bytes) (vA : Json)
    (hA1 : fsA.lookup (joinPath pack eA.path) = some dataA)
    (hA2 : eA.key = none)
    (hA3 : joinPath pack eA.path ≠ joinPath out eA.path)
    (hA4 : endsWithJson eA.path = true)
    (hA5 : jsonParse dataA = some vA)
    (fsB : FS) (eB : ContentEntry) (dataB kB : Bytes) (vB : Json)
    (hB1 : fsB.lookup (joinPath pack eB.path) = some dataB)
    (hB2 : eB.key = some kB)
    (hB3 : kB.length = 32)
    (hB4 : endsWithJson eB.path = true)
    (hB5 : jsonParse ((Aes256Cfb8Dec.mk kB (kB.take 16)).decrypt E dataB) = some vB)
    (fsC : FS) (eC : ContentEntry) (dataC : Bytes)
    (hC1 : fsC.lookup (joinPath pack eC.path) = some dataC)
    (hC2 : eC.key = none)
    (hC3 : joinPath pack eC.path ≠ joinPath out eC.path)
    (hC4 : endsWithJson eC.path = false) :
    (processEntry E pack out fsA eA =
        .ok (fsA.write (joinPath out eA.path) (normalizeJson dataA)) ∧
      jsonParse (normalizeJson dataA) = some vA) ∧
    (processEntry E pack out fsB eB =
        .ok (fsB.write (joinPath out eB.path)
          (normalizeJson ((Aes256Cfb8Dec.mk kB (kB.take 16)).decrypt E dataB))) ∧
      jsonParse (normalizeJson ((Aes256Cfb8Dec.mk kB (kB.take 16)).decrypt E dataB)) =
        some vB) ∧
    processEntry E pack out fsC eC = .ok (fsC.write (joinPath out eC.path) dataC) := by
  refine ⟨⟨?_, (normalizeJson_roundtrip dataA vA hA5).2⟩,
    ⟨?_, (normalizeJson_roundtrip _ vB hB5).2⟩, ?_⟩
  · simp only [processEntry, hA1, hA2, if_neg hA3, hA4, if_true]
  · simp only [processEntry, hB1, hB2]
    rw [if_neg (show ¬kB.length < 16 by omega), newFromSlices_ok kB hB3]
    dsimp only
    simp only [hB4, if_true]
  · simp only [processEntry, hC1, hC2, if_neg hC3, hC4, Bool.false_eq_true, if_false]

theorem claim_C6_witness :
    (processEntry wE wPack wOut wFsC6a ⟨strBytes "a.json", none⟩ =
        .ok (wFsC6a.write (joinPath wOut (strBytes "a.json"))
          (normalizeJson (strBytes "[1,2]"))) ∧
      jsonParse (normalizeJson (strBytes "[1,2]")) =
        some (Json.arr [Json.num 1, Json.num 2])) ∧
    (processEntry wE wPack wOut wFsC6b ⟨strBytes "b.json", some wKey⟩ =
        .ok (wFsC6b.write (joinPath wOut (strBytes "b.json"))
          (normalizeJson ((Aes256Cfb8Dec.mk wKey (wKey.take 16)).decrypt wE
            (strBytes "\x7b\"k\":true\x7d")))) ∧
      jsonParse (normalizeJson ((Aes256Cfb8Dec.mk wKey (wKey.take 16)).decrypt wE
          (strBytes "\x7b\"k\":true\x7d"))) =
        some (Json.obj [(strBytes "k", Json.bool true)])) ∧
    processEntry wE wPack wOut wFsC6c ⟨strBytes "c.bin", none⟩ =
      .ok (wFsC6c.write (joinPath wOut (strBytes "c.bin")) [9, 8, 7]) :=
  claim_C6 wE wPack wOut
    wFsC6a ⟨strBytes "a.json", none⟩ (strBytes "[1,2]") (Json.arr [Json.num 1, Json.num 2])
    (by rfl) (by rfl) (by decide) (by rfl) (by rfl)
    wFsC6b ⟨strBytes "b.json", some wKey⟩ (strBytes "\x7b\"k\":true\x7d") wKey
    (Json.obj [(strBytes "k", Json.bool true)])
    (by rfl) (by rfl) (by rfl) (by rfl) (by rfl)
    wFsC6c ⟨strBytes "c.bin", none⟩ [9, 8, 7]
    (by rfl) (by rfl) (by decide) (by rfl)

/-! ## Path-traversal lemmas (claim C10 support) -/

theorem joinPath_abs (root p : Bytes) (h : p.head? = some 47) :
    joinPath root p = p := by
  rw [joinPath, if_pos h]

theorem splitSegsAux_append (seg : Bytes) (h : 47 ∉ seg) (rest acc : Bytes) :
    splitSegsAux acc (seg ++ 47 :: rest) =
      (acc.reverse ++ seg) :: splitSegsAux [] rest := by
  induction seg generalizing acc with
  | nil => simp [splitSegsAux]
  | cons c cs ih =>
    have hc : c ≠ 47 := fun hh => h (hh ▸ List.mem_cons_self c cs)
    have hcs : 47 ∉ cs := fun hh => h (List.mem_cons_of_mem c hh)
    rw [List.cons_append, splitSegsAux, if_neg hc, ih hcs]
    simp

theorem splitSegsAux_no47 (q : Bytes) (h : 47 ∉ q) (acc : Bytes) :
    splitSegsAux acc q = [acc.reverse ++ q] := by
  induction q generalizing acc with
  | nil => simp [splitSegsAux]
  | cons c cs ih =>
    have hc : c ≠ 47 := fun hh => h (hh ▸ List.mem_cons_self c cs)
    have hcs : 47 ∉ cs := fun hh => h (List.mem_cons_of_mem c hh)
    rw [splitSegsAux, if_neg hc, ih hcs]
    simp

theorem bytesLe_mem (x : Nat) : ∀ (a b : Bytes), bytesLe a b = true → x ∈ a → x ∈ b
  | [], _, _, hx => absurd hx (List.not_mem_nil x)
  | _ :: _, [], h, _ => by rw [bytesLe] at h; exact absurd h (by simp)
  | a :: as, b :: bs, h, hx => by
    rw [bytesLe, Bool.and_eq_true, beq_iff_eq] at h
    rcases List.mem_cons.1 hx with hx | hx
    · rw [hx, h.1]
      exact List.mem_cons_self b bs
    · exact List.mem_cons_of_mem b (bytesLe_mem x as bs h.2 hx)

/-- Claim C10: entry paths are joined unsanitized.  An absolute entry path
replaces the root entirely in `Path::join`, so the entry is read from and
written at that absolute location no matter what the archive and output
roots are; and a `..` component in a joined path escapes the output root
once the OS resolves it. -/
theorem claim_C10 (E : Bytes → Bytes → Bytes) (pack out : Bytes) (fs : FS)
    (e : ContentEntry) (data k : Bytes)
    (h1 : e.path.head? = some 47) (h2 : e.key = some k) (h3 : k.length = 32)
    (h4 : endsWithJson e.path = false) (h5 : fs.lookup e.path = some data)
    (seg q : Bytes) (hs47 : 47 ∉ seg) (hq47 : 47 ∉ q)
    (hs1 : seg ≠ []) (hs2 : seg ≠ [46]) (hs3 : seg ≠ [46, 46])
    (hq1 : q ≠ []) (hq2 : q ≠ [46]) (hq3 : q ≠ [46, 46]) (hqs : q ≠ seg) :
    (∀ root : Bytes, joinPath root e.path = e.path) ∧
    processEntry E pack out fs e =
      .ok (fs.write e.path ((Aes256Cfb8Dec.mk k (k.take 16)).decrypt E data)) ∧
    (resolvePath (joinPath (47 :: seg) (46 :: 46 :: 47 :: q)) = 47 :: q ∧
      underRoot (47 :: seg) (47 :: q) = false) := by
  have habs : ∀ root : Bytes, joinPath root e.path = e.path := by
    intro root
    rw [joinPath, if_pos h1]
  refine ⟨habs, ?_, ?_, ?_⟩
  · simp only [processEntry, habs, h5, h2]
    rw [if_neg (show ¬k.length < 16 by omega), newFromSlices_ok k h3]
    dsimp only
    simp only [h4, Bool.false_eq_true, if_false]
  · have hj : joinPath (47 :: seg) (46 :: 46 :: 47 :: q) =
        47 :: (seg ++ 47 :: ([46, 46] ++ 47 :: q)) := by
      rw [joinPath, if_neg (by simp)]
      simp
    rw [hj, resolvePath, splitSegs, splitSegsAux, if_pos rfl,
      splitSegsAux_append seg hs47, splitSegsAux_append [46, 46] (by decide),
      splitSegsAux_no47 q hq47]
    simp only [List.reverse_nil, List.nil_append]
    rw [resolveStack, if_neg (by decide), if_pos (by simp)]
    rw [resolveStack, if_neg hs3, if_neg (by rintro (h | h); exacts [hs2 h, hs1 h])]
    rw [resolveStack, if_pos rfl]
    rw [resolveStack, if_neg hq3, if_neg (by rintro (h | h); exacts [hq2 h, hq1 h])]
    rw [resolveStack]
    rfl
  · rw [underRoot, Bool.or_eq_false_iff]
    constructor
    · simp only [beq_eq_false_iff_ne, ne_eq, List.cons.injEq, not_and, true_implies]
      exact hqs
    · rw [show (47 :: seg) ++ [47] = 47 :: (seg ++ [47]) from rfl]
      rw [bytesLe, show (47 == 47) = true from rfl, Bool.true_and]
      rcases hb : bytesLe (seg ++ [47]) q with _ | _
      · rfl
      · exact absurd (bytesLe_mem 47 _ q hb (by simp)) hq47

theorem claim_C10_witness :
    (∀ root : Bytes, joinPath root (strBytes "/s/x.bin") = strBytes "/s/x.bin") ∧
    processEntry wE wPack wOut wFsC10 ⟨strBytes "/s/x.bin", some wKey⟩ =
      .ok (wFsC10.write (strBytes "/s/x.bin")
        ((Aes256Cfb8Dec.mk wKey (wKey.take 16)).decrypt wE [5, 6])) ∧
    (resolvePath (joinPath (47 :: strBytes "o") (46 :: 46 :: 47 :: strBytes "evil")) =
        47 :: strBytes "evil" ∧
      underRoot (47 :: strBytes "o") (47 :: strBytes "evil") = false) :=
  claim_C10 wE wPack wOut wFsC10 ⟨strBytes "/s/x.bin", some wKey⟩ [5, 6] wKey
    (by rfl) (by rfl) (by rfl) (by rfl) (by rfl)
    (strBytes "o") (strBytes "evil")
    (by decide) (by decide) (by decide) (by decide) (by decide)
    (by decide) (by decide) (by decide) (by decide)

/-! ## Claim C1: the whole key is passed, not its first 32 bytes -/

theorem processEntrySpec32_eq (E : Bytes → Bytes → Bytes) (pack out : Bytes)
    (fs : FS) (e : ContentEntry)
    (hek : ∀ k2, e.key = some k2 → k2.length = 32) :
    processEntrySpec32 E pack out fs e = processEntry E pack out fs e := by
  simp only [processEntry, processEntrySpec32]
  cases hlook : fs.lookup (joinPath pack e.path) with
  | none => rfl
  | some data =>
    cases hkey : e.key with
    | none => rfl
    | some k =>
      have hk32 : k.length = 32 := hek k hkey
      dsimp only
      rw [if_neg (show ¬k.length < 16 by omega), take32_eq k hk32]

theorem processEntriesSpec32_eq (E : Bytes → Bytes → Bytes) (pack out : Bytes) :
    ∀ (entries : List ContentEntry) (fs : FS),
      (∀ e ∈ entries, ∀ k2, e.key = some k2 → k2.length = 32) →
      processEntriesSpec32 E pack out fs entries = processEntries E pack out fs entries := by
  intro entries
  induction entries with
  | nil => intro fs _; rfl
  | cons e es ih =>
    intro fs hek
    rw [processEntriesSpec32, processEntries,
      processEntrySpec32_eq E pack out fs e (hek e (List.mem_cons_self e es))]
    cases processEntry E pack out fs e with
    | ok fs2 => exact ih fs2 (fun e2 he2 => hek e2 (List.mem_cons_of_mem e he2))
    | err er f => rfl
    | panic f => rfl

/-- Claim C1 counterexample: the code passes the *whole* master key string
to `new_from_slices`, not its first 32 bytes, so a 33-byte key — which the
claim says should work, keyed with its first 32 bytes — makes the real run
panic at the `unwrap`, while the spec-described truncating variant
completes the same archive successfully. -/
theorem claim_C1_counterexample :
    wKey33.length = 33 ∧
    internal_decrypt wE wKey33 wPack wOut wFsC1 =
      .panic (sidecarWrites wOut wFsC1 [1] [2]) ∧
    internal_decrypt_spec32 wE wKey33 wPack wOut wFsC1 =
      .ok (sidecarWrites wOut wFsC1 [1] [2]) := by
  refine ⟨by rfl, by rfl, by rfl⟩

/-- Claim C1 (amended): when the master key is exactly 32 bytes — and every
per-entry key is exactly 32 bytes — the run coincides with the variant the
spec describes (cipher keyed with the first 32 bytes of the key material,
IV its first 16 bytes), because then the whole key *is* its first 32 bytes;
for any other master-key length the run panics instead of truncating. -/
theorem claim_C1 (E : Bytes → Bytes → Bytes) (key pack out : Bytes) (fs : FS)
    (m i raw : Bytes) (entries : List ContentEntry)
    (hm : fs.lookup (joinPath pack manifestName) = some m)
    (hi : fs.lookup (joinPath pack iconName) = some i)
    (hraw : fs.lookup (joinPath pack contentsName) = some raw)
    (hne1 : joinPath out manifestName ≠ joinPath pack iconName)
    (hne2 : joinPath out manifestName ≠ joinPath pack contentsName)
    (hne3 : joinPath out iconName ≠ joinPath pack contentsName)
    (hk : key.length = 32)
    (hdec : (jsonParse ((Aes256Cfb8Dec.mk key (key.take 16)).decrypt E
        (raw.drop 256))).bind decodeContent = some entries)
    (hek : ∀ e ∈ entries, ∀ k2, e.key = some k2 → k2.length = 32) :
    key.take 32 = key ∧
    internal_decrypt E key pack out fs = internal_decrypt_spec32 E key pack out fs := by
  have hi2 : (fs.write (joinPath out manifestName) m).lookup (joinPath pack iconName)
      = some i := by
    rw [FS.lookup_write_ne _ _ _ _ (fun hh => hne1 hh.symm)]
    exact hi
  have hraw2 : ((fs.write (joinPath out manifestName) m).write
        (joinPath out iconName) i).lookup (joinPath pack contentsName) = some raw := by
    rw [FS.lookup_write_ne _ _ _ _ (fun hh => hne3 hh.symm),
      FS.lookup_write_ne _ _ _ _ (fun hh => hne2 hh.symm)]
    exact hraw
  refine ⟨take32_eq key hk, ?_⟩
  simp only [internal_decrypt, internal_decrypt_spec32, hm, hi2, hraw2]
  rw [if_neg (show ¬key.length < 16 by omega), take32_eq key hk,
    newFromSlices_ok key hk]
  dsimp only
  rw [hdec]
  dsimp only
  exact (processEntriesSpec32_eq E pack out entries _ hek).symm

theorem claim_C1_witness :
    wKey.take 32 = wKey ∧
    internal_decrypt wE wKey wPack wOut wFsC1 =
      internal_decrypt_spec32 wE wKey wPack wOut wFsC1 :=
  claim_C1 wE wKey wPack wOut wFsC1 [1] [2]
    (List.replicate 256 0 ++ strBytes "\x7b\"content\":[]\x7d") []
    (by rfl) (by rfl) (by rfl) (by decide) (by decide) (by decide) (by rfl) (by rfl)
    (fun e he => absurd he (List.not_mem_nil e))

/-- Claim C8 counterexample: an index entry whose path is absolute and
points inside the archive root is read from there and *written back
there* (decrypted), so a run modifies a file under the archive root —
the archive is not read-only. -/
theorem claim_C8_counterexample :
    wFsC8.lookup (strBytes "/p/x.bin") = some [5, 6] ∧
    underRoot wPack (strBytes "/p/x.bin") = true ∧
    ((internal_decrypt wE1 wKey wPack wOut wFsC8).fs).lookup (strBytes "/p/x.bin") =
      some [4, 7] := by
  refine ⟨by rfl, by rfl, by rfl⟩

theorem joins_ne_of_disjoint (pack out : Bytes)
    (hpo : underRoot pack out = false) (hop : underRoot out pack = false)
    (q r : Bytes) (hq : q.head? ≠ some 47) (hr : r.head? ≠ some 47) :
    joinPath out q ≠ joinPath pack r := by
  intro h
  have h1 := not_under_join pack out hpo hop q hq
  have h2 := underRoot_join pack r hr
  rw [← h] at h2
  rw [h2] at h1
  exact Bool.true_eq_false ▸ h1

theorem splitSegsAux_ne_nil : ∀ (acc p : Bytes), splitSegsAux acc p ≠ []
  | acc, [] => by simp [splitSegsAux]
  | acc, c :: cs => by
    rw [splitSegsAux]
    by_cases hc : c = 47
    · rw [if_pos hc]
      simp
    · rw [if_neg hc]
      exact splitSegsAux_ne_nil (c :: acc) cs

theorem joinSegs_splitSegsAux : ∀ (p acc : Bytes),
    joinSegs (splitSegsAux acc p) = acc.reverse ++ p
  | [], acc => by simp [splitSegsAux, joinSegs]
  | c :: cs, acc => by
    rw [splitSegsAux]
    by_cases hc : c = 47
    · rw [if_pos hc]
      have h1 := joinSegs_splitSegsAux cs []
      simp only [List.reverse_nil, List.nil_append] at h1
      cases hsp : splitSegsAux [] cs with
      | nil => exact absurd hsp (splitSegsAux_ne_nil [] cs)
      | cons seg ss =>
        rw [hsp] at h1
        subst hc
        calc joinSegs (acc.reverse :: seg :: ss)
            = acc.reverse ++ 47 :: joinSegs (seg :: ss) := rfl
          _ = acc.reverse ++ 47 :: cs := by rw [h1]
    · rw [if_neg hc, joinSegs_splitSegsAux cs (c :: acc)]
      simp

theorem splitSegsAux_split : ∀ (a acc b : Bytes),
    splitSegsAux acc (a ++ 47 :: b) = splitSegsAux acc a ++ splitSegs b
  | [], acc, b => by
    simp [splitSegsAux, splitSegs]
  | c :: cs, acc, b => by
    rw [List.cons_append, splitSegsAux, splitSegsAux]
    by_cases hc : c = 47
    · rw [if_pos hc, if_pos hc, splitSegsAux_split cs [] b]
      rfl
    · rw [if_neg hc, if_neg hc, splitSegsAux_split cs (c :: acc) b]

theorem resolveStack_clean : ∀ (ss stk : List Bytes),
    ss.all cleanSeg = true → resolveStack stk ss = stk.reverse ++ ss
  | [], stk, _ => by simp [resolveStack]
  | seg :: ss, stk, h => by
    rw [List.all_cons, Bool.and_eq_true] at h
    have hs := h.1
    have h1 : ¬seg = [46, 46] := by
      intro hh
      subst hh
      simp [cleanSeg] at hs
    have h2 : ¬(seg = [46] ∨ seg = []) := by
      rintro (hh | hh) <;> (subst hh; simp [cleanSeg] at hs)
    rw [resolveStack, if_neg h1, if_neg h2, resolveStack_clean ss (seg :: stk) h.2]
    simp

theorem cleanSeg_head (q : Bytes) (h : (splitSegs q).all cleanSeg = true) :
    q.head? ≠ some 47 := by
  intro hh
  cases q with
  | nil => simp at hh
  | cons c t =>
    simp only [List.head?] at hh
    injection hh with hc
    subst hc
    rw [splitSegs, splitSegsAux, if_pos rfl] at h
    simp [cleanSeg] at h

/-- An absolute root with clean segments joined with a clean relative path
is a fixed point of OS path resolution: the literal path string *is* the
file the OS opens.  This is what makes byte-level path identity faithful
for runs whose entry paths are clean. -/
theorem resolvePath_join (r q : Bytes) (hr : r.head? = some 47)
    (hrc : (splitSegs (r.drop 1)).all cleanSeg = true)
    (hqc : (splitSegs q).all cleanSeg = true) :
    resolvePath (joinPath r q) = joinPath r q := by
  have hq : q.head? ≠ some 47 := cleanSeg_head q hqc
  obtain ⟨r', rfl⟩ : ∃ r', r = 47 :: r' := by
    cases r with
    | nil => simp at hr
    | cons c t =>
      simp only [List.head?] at hr
      injection hr with hc
      exact ⟨t, by rw [hc]⟩
  simp only [List.drop_succ_cons, List.drop_zero] at hrc
  rw [joinPath, if_neg hq]
  have hX : (47 :: r') ++ 47 :: q = 47 :: (r' ++ 47 :: q) := rfl
  rw [hX, resolvePath, splitSegs, splitSegsAux, if_pos rfl]
  rw [resolveStack]
  simp only [List.reverse_nil]
  rw [if_neg (by decide), if_pos (Or.inr trivial)]
  have hall : (splitSegsAux [] (r' ++ 47 :: q)).all cleanSeg = true := by
    rw [splitSegsAux_split r' [] q, List.all_append, Bool.and_eq_true]
    exact ⟨hrc, hqc⟩
  rw [resolveStack_clean _ [] hall]
  simp only [List.reverse_nil, List.nil_append]
  rw [joinSegs_splitSegsAux (r' ++ 47 :: q) []]
  simp

theorem manifestName_clean : (splitSegs manifestName).all cleanSeg = true := by decide

theorem iconName_clean : (splitSegs iconName).all cleanSeg = true := by decide

/-- Claim C8 (amended): provided the archive and output roots are disjoint
absolute directory paths with clean segments, and every index entry path
is relative and consists only of clean segments (no empty, `.` or `..`
components), no run — including one that fails partway — changes any file
under the archive root.  The theorem also proves that every path the entry
loop touches (each entry's source and target, and the two sidecar targets)
is a fixed point of OS path resolution, so on such runs literal path bytes
name exactly the file the OS opens and the byte-level file map is
faithful; a `..`-bearing entry path, which could alias an archive file
after resolution, is excluded by the cleanliness proviso. -/
theorem claim_C8 (E : Bytes → Bytes → Bytes) (key pack out : Bytes) (fs : FS)
    (m i raw : Bytes) (entries : List ContentEntry)
    (hm : fs.lookup (joinPath pack manifestName) = some m)
    (hi : fs.lookup (joinPath pack iconName) = some i)
    (hraw : fs.lookup (joinPath pack contentsName) = some raw)
    (hpo : underRoot pack out = false) (hop : underRoot out pack = false)
    (hpa : pack.head? = some 47)
    (hpac : (splitSegs (pack.drop 1)).all cleanSeg = true)
    (hoa : out.head? = some 47)
    (hoac : (splitSegs (out.drop 1)).all cleanSeg = true)
    (hk : key.length = 32)
    (hdec : (jsonParse ((Aes256Cfb8Dec.mk key (key.take 16)).decrypt E
        (raw.drop 256))).bind decodeContent = some entries)
    (hclean : ∀ e ∈ entries, (splitSegs e.path).all cleanSeg = true) :
    (∀ e ∈ entries,
      resolvePath (joinPath pack e.path) = joinPath pack e.path ∧
      resolvePath (joinPath out e.path) = joinPath out e.path) ∧
    resolvePath (joinPath out manifestName) = joinPath out manifestName ∧
    resolvePath (joinPath out iconName) = joinPath out iconName ∧
    ∀ p : Bytes, underRoot pack p = true →
      ((internal_decrypt E key pack out fs).fs).lookup p = fs.lookup p := by
  have hrel : ∀ e ∈ entries, e.path.head? ≠ some 47 :=
    fun e he => cleanSeg_head e.path (hclean e he)
  refine ⟨fun e he => ⟨resolvePath_join pack e.path hpa hpac (hclean e he),
      resolvePath_join out e.path hoa hoac (hclean e he)⟩,
    resolvePath_join out manifestName hoa hoac manifestName_clean,
    resolvePath_join out iconName hoa hoac iconName_clean, ?_⟩
  intro p hp
  have hne1 := joins_ne_of_disjoint pack out hpo hop manifestName iconName
    manifestName_head iconName_head
  have hne2 := joins_ne_of_disjoint pack out hpo hop manifestName contentsName
    manifestName_head contentsName_head
  have hne3 := joins_ne_of_disjoint pack out hpo hop iconName contentsName
    iconName_head contentsName_head
  rw [internal_decrypt_unfold E key pack out fs m i raw hm hi hraw hne1 hne2 hne3 hk]
  rw [hdec]
  dsimp only
  have hpm : p ≠ joinPath out manifestName := by
    intro hh
    have h1 := not_under_join pack out hpo hop manifestName manifestName_head
    rw [← hh, hp] at h1
    exact Bool.true_eq_false ▸ h1
  have hpi : p ≠ joinPath out iconName := by
    intro hh
    have h1 := not_under_join pack out hpo hop iconName iconName_head
    rw [← hh, hp] at h1
    exact Bool.true_eq_false ▸ h1
  rw [processEntries_fs E pack out entries (sidecarWrites out fs m i) p ?hent]
  case hent =>
    intro e he hh
    have h1 := not_under_join pack out hpo hop e.path (hrel e he)
    rw [← hh, hp] at h1
    exact Bool.true_eq_false ▸ h1
  rw [sidecarWrites, FS.lookup_write_ne _ _ _ _ hpi, FS.lookup_write_ne _ _ _ _ hpm]

theorem claim_C8_witness :
    (∀ e ∈ ([⟨strBytes "x.bin", none⟩] : List ContentEntry),
      resolvePath (joinPath wPack e.path) = joinPath wPack e.path ∧
      resolvePath (joinPath wOut e.path) = joinPath wOut e.path) ∧
    resolvePath (joinPath wOut manifestName) = joinPath wOut manifestName ∧
    resolvePath (joinPath wOut iconName) = joinPath wOut iconName ∧
    ∀ p : Bytes, underRoot wPack p = true →
      ((internal_decrypt wE wKey wPack wOut wFsC8w).fs).lookup p = wFsC8w.lookup p :=
  claim_C8 wE wKey wPack wOut wFsC8w [1] [2]
    (List.replicate 256 0 ++
      strBytes "\x7b\"content\":[\x7b\"path\":\"x.bin\"\x7d]\x7d")
    [⟨strBytes "x.bin", none⟩]
    (by rfl) (by rfl) (by rfl) (by decide) (by decide) (by rfl) (by decide)
    (by rfl) (by decide) (by rfl) (by rfl) (by decide)

theorem lastWrite_nil (p : Bytes) : lastWrite [] p = none := rfl

theorem lastWrite_cons (w : Option (Bytes × Bytes)) (ws : List (Option (Bytes × Bytes)))
    (p : Bytes) :
    lastWrite (w :: ws) p =
      match lastWrite ws p with
      | some v => some v
      | none => writeAt w p := rfl

theorem append_cancel_snd (x a b : Bytes) (h : a ++ x = b ++ x) : a = b := by
  have h2 := congrArg List.reverse h
  simp only [List.reverse_append] at h2
  exact List.reverse_injective (List.append_cancel_left h2)

theorem joinPath_rel_inj (a b q : Bytes) (hq : q.head? ≠ some 47)
    (h : joinPath a q = joinPath b q) : a = b := by
  rw [joinPath, if_neg hq, joinPath, if_neg hq] at h
  exact append_cancel_snd (47 :: q) a b h

theorem ne_of_disjoint_roots (pack out : Bytes)
    (hpo : underRoot pack out = false) : pack ≠ out := by
  intro h
  subst h
  simp [underRoot] at hpo

theorem applyWrites_lastWrite_none :
    ∀ (ws : List (Option (Bytes × Bytes))) (fs : FS) (p : Bytes),
      lastWrite ws p = none → (applyWrites fs ws).lookup p = fs.lookup p
  | [], _, _, _ => rfl
  | w :: ws, fs, p, h => by
    rw [lastWrite_cons] at h
    cases hl : lastWrite ws p with
    | some v => rw [hl] at h; exact absurd h (by simp)
    | none =>
      rw [hl] at h
      dsimp only at h
      cases w with
      | none => exact applyWrites_lastWrite_none ws fs p hl
      | some qv =>
        obtain ⟨q, v⟩ := qv
        simp only [writeAt] at h
        rw [applyWrites]
        have hpq : p ≠ q := by
          intro hpq
          rw [if_pos hpq] at h
          exact absurd h (by simp)
        rw [applyWrites_lastWrite_none ws _ p hl, FS.lookup_write_ne _ _ _ _ hpq]

theorem applyWrites_lastWrite_some :
    ∀ (ws : List (Option (Bytes × Bytes))) (fs : FS) (p : Bytes) (v : Bytes),
      lastWrite ws p = some v → (applyWrites fs ws).lookup p = some v
  | [], _, _, _, h => absurd h (by simp [lastWrite_nil])
  | w :: ws, fs, p, v, h => by
    rw [lastWrite_cons] at h
    cases hl : lastWrite ws p with
    | some v2 =>
      rw [hl] at h
      dsimp only at h
      cases h
      cases w with
      | none => exact applyWrites_lastWrite_some ws fs p v hl
      | some qv =>
        obtain ⟨q, v0⟩ := qv
        exact applyWrites_lastWrite_some ws _ p v hl
    | none =>
      rw [hl] at h
      dsimp only at h
      cases w with
      | none => exact absurd h (by simp [writeAt])
      | some qv =>
        obtain ⟨q, v0⟩ := qv
        simp only [writeAt] at h
        by_cases hpq : p = q
        · rw [if_pos hpq] at h
          cases h
          rw [applyWrites, applyWrites_lastWrite_none ws _ p hl, hpq,
            FS.lookup_write_self]
        · rw [if_neg hpq] at h
          exact absurd h (by simp)

theorem entryOut_congr (E : Bytes → Bytes → Bytes) (pack out : Bytes)
    (fsA fsB : FS) (e : ContentEntry)
    (h : fsA.lookup (joinPath pack e.path) = fsB.lookup (joinPath pack e.path)) :
    entryOut E pack out fsA e = entryOut E pack out fsB e := by
  rw [entryOut, entryOut, h]

theorem lastWrite_entry_none (E : Bytes → Bytes → Bytes) (pack out : Bytes)
    (fs0 : FS) :
    ∀ (entries : List ContentEntry) (p : Bytes),
      (∀ e ∈ entries, p ≠ joinPath out e.path) →
      lastWrite (entries.map (entryOut E pack out fs0)) p = none
  | [], _, _ => rfl
  | e :: es, p, h => by
    rw [List.map_cons, lastWrite_cons,
      lastWrite_entry_none E pack out fs0 es p
        (fun e2 he2 => h e2 (List.mem_cons_of_mem e he2))]
    dsimp only
    rw [entryOut]
    cases fs0.lookup (joinPath pack e.path) with
    | none => rfl
    | some data =>
      cases e.key with
      | none => exact if_neg (h e (List.mem_cons_self e es))
      | some k => exact if_neg (h e (List.mem_cons_self e es))

theorem lastWrite_map_congr (E : Bytes → Bytes → Bytes) (pack out : Bytes)
    (fsA fsB : FS) (entries : List ContentEntry)
    (h : ∀ e ∈ entries, fsA.lookup (joinPath pack e.path) =
      fsB.lookup (joinPath pack e.path)) :
    entries.map (entryOut E pack out fsA) = entries.map (entryOut E pack out fsB) :=
  List.map_congr_left (fun e he => entryOut_congr E pack out fsA fsB e (h e he))

theorem applyWrites_cons_none (fs : FS) (ws : List (Option (Bytes × Bytes))) :
    applyWrites fs (none :: ws) = applyWrites fs ws := rfl

theorem applyWrites_cons_some (fs : FS) (p v : Bytes)
    (ws : List (Option (Bytes × Bytes))) :
    applyWrites fs (some (p, v) :: ws) = applyWrites (fs.write p v) ws := rfl

theorem processEntries_run (E : Bytes → Bytes → Bytes) (pack out : Bytes)
    (hpo : underRoot pack out = false) (hop : underRoot out pack = false) :
    ∀ (entries : List ContentEntry) (fs fs0 : FS),
      (∀ e ∈ entries, e.path.head? ≠ some 47) →
      (∀ e ∈ entries, ∀ k2, e.key = some k2 → k2.length = 32) →
      (∀ e ∈ entries, fs.lookup (joinPath pack e.path) =
        fs0.lookup (joinPath pack e.path)) →
      processEntries E pack out fs entries =
        .ok (applyWrites fs (entries.map (entryOut E pack out fs0)))
  | [], fs, fs0, _, _, _ => rfl
  | e :: es, fs, fs0, hrel, hek, hagree => by
    have hrel0 := hrel e (List.mem_cons_self e es)
    have hagree0 := hagree e (List.mem_cons_self e es)
    have hne : joinPath pack e.path ≠ joinPath out e.path := by
      intro hh
      exact ne_of_disjoint_roots pack out hpo
        (joinPath_rel_inj pack out e.path hrel0 hh)
    have hkeep : ∀ (v : Bytes) (e2 : ContentEntry), e2 ∈ es →
        (fs.write (joinPath out e.path) v).lookup (joinPath pack e2.path) =
          fs0.lookup (joinPath pack e2.path) := by
      intro v e2 he2
      rw [FS.lookup_write_ne _ _ _ _
        (fun hh => joins_ne_of_disjoint pack out hpo hop e.path
          (e2.path) hrel0 (hrel e2 (List.mem_cons_of_mem e he2)) hh.symm)]
      exact hagree e2 (List.mem_cons_of_mem e he2)
    rw [processEntries, List.map_cons]
    cases hlook : fs.lookup (joinPath pack e.path) with
    | none =>
      have hlook0 : fs0.lookup (joinPath pack e.path) = none := hagree0 ▸ hlook
      simp only [processEntry, hlook]
      rw [show entryOut E pack out fs0 e = none from by rw [entryOut, hlook0],
        applyWrites_cons_none]
      exact processEntries_run E pack out hpo hop es fs fs0
        (fun e2 he2 => hrel e2 (List.mem_cons_of_mem e he2))
        (fun e2 he2 => hek e2 (List.mem_cons_of_mem e he2))
        (fun e2 he2 => hagree e2 (List.mem_cons_of_mem e he2))
    | some data =>
      have hlook0 : fs0.lookup (joinPath pack e.path) = some data := hagree0 ▸ hlook
      cases hkey : e.key with
      | none =>
        have hout : entryOut E pack out fs0 e =
            some (joinPath out e.path,
              if endsWithJson e.path then normalizeJson data else data) := by
          rw [entryOut, hlook0, hkey]
        simp only [processEntry, hlook, hkey, if_neg hne]
        rw [hout, applyWrites_cons_some]
        cases hj : endsWithJson e.path with
        | true =>
          simp only [hj, if_true]
          exact processEntries_run E pack out hpo hop es _ fs0
            (fun e2 he2 => hrel e2 (List.mem_cons_of_mem e he2))
            (fun e2 he2 => hek e2 (List.mem_cons_of_mem e he2))
            (fun e2 he2 => hkeep _ e2 he2)
        | false =>
          simp only [hj, Bool.false_eq_true, if_false]
          exact processEntries_run E pack out hpo hop es _ fs0
            (fun e2 he2 => hrel e2 (List.mem_cons_of_mem e he2))
            (fun e2 he2 => hek e2 (List.mem_cons_of_mem e he2))
            (fun e2 he2 => hkeep _ e2 he2)
      | some k =>
        have hk32 : k.length = 32 := hek e (List.mem_cons_self e es) k hkey
        have hout : entryOut E pack out fs0 e =
            some (joinPath out e.path,
              if endsWithJson e.path
              then normalizeJson ((Aes256Cfb8Dec.mk k (k.take 16)).decrypt E data)
              else (Aes256Cfb8Dec.mk k (k.take 16)).decrypt E data) := by
          rw [entryOut, hlook0, hkey]
        simp only [processEntry, hlook, hkey]
        rw [if_neg (show ¬k.length < 16 by omega), newFromSlices_ok k hk32]
        dsimp only
        rw [hout, applyWrites_cons_some]
        cases hj : endsWithJson e.path with
        | true =>
          simp only [hj, if_true]
          exact processEntries_run E pack out hpo hop es _ fs0
            (fun e2 he2 => hrel e2 (List.mem_cons_of_mem e he2))
            (fun e2 he2 => hek e2 (List.mem_cons_of_mem e he2))
            (fun e2 he2 => hkeep _ e2 he2)
        | false =>
          simp only [hj, Bool.false_eq_true, if_false]
          exact processEntries_run E pack out hpo hop es _ fs0
            (fun e2 he2 => hrel e2 (List.mem_cons_of_mem e he2))
            (fun e2 he2 => hek e2 (List.mem_cons_of_mem e he2))
            (fun e2 he2 => hkeep _ e2 he2)

theorem sidecarWrites_pack_lookup (pack out : Bytes)
    (hpo : underRoot pack out = false) (hop : underRoot out pack = false)
    (g : FS) (m i q : Bytes) (hq : q.head? ≠ some 47) :
    (sidecarWrites out g m i).lookup (joinPath pack q) = g.lookup (joinPath pack q) := by
  rw [sidecarWrites,
    FS.lookup_write_ne _ _ _ _
      (fun hh => joins_ne_of_disjoint pack out hpo hop iconName q iconName_head hq hh.symm),
    FS.lookup_write_ne _ _ _ _
      (fun hh => joins_ne_of_disjoint pack out hpo hop manifestName q
        manifestName_head hq hh.symm)]

theorem applyWrites_pack_lookup (E : Bytes → Bytes → Bytes) (pack out : Bytes)
    (hpo : underRoot pack out = false) (hop : underRoot out pack = false)
    (fs0 g : FS) (entries : List ContentEntry)
    (hrel : ∀ e ∈ entries, e.path.head? ≠ some 47) (q : Bytes)
    (hq : q.head? ≠ some 47) :
    (applyWrites g (entries.map (entryOut E pack out fs0))).lookup (joinPath pack q) =
      g.lookup (joinPath pack q) :=
  applyWrites_lastWrite_none _ g _
    (lastWrite_entry_none E pack out fs0 entries _
      (fun e he hh =>
        joins_ne_of_disjoint pack out hpo hop e.path q (hrel e he) hq hh.symm))

theorem internal_decrypt_run (E : Bytes → Bytes → Bytes) (key pack out : Bytes)
    (fs : FS) (m i raw : Bytes) (entries : List ContentEntry)
    (hm : fs.lookup (joinPath pack manifestName) = some m)
    (hi : fs.lookup (joinPath pack iconName) = some i)
    (hraw : fs.lookup (joinPath pack contentsName) = some raw)
    (hpo : underRoot pack out = false) (hop : underRoot out pack = false)
    (hk : key.length = 32)
    (hdec : (jsonParse ((Aes256Cfb8Dec.mk key (key.take 16)).decrypt E
        (raw.drop 256))).bind decodeContent = some entries)
    (hrel : ∀ e ∈ entries, e.path.head? ≠ some 47)
    (hek : ∀ e ∈ entries, ∀ k2, e.key = some k2 → k2.length = 32) :
    internal_decrypt E key pack out fs =
      .ok (applyWrites (sidecarWrites out fs m i)
        (entries.map (entryOut E pack out (sidecarWrites out fs m i)))) := by
  rw [internal_decrypt_unfold E key pack out fs m i raw hm hi hraw
    (joins_ne_of_disjoint pack out hpo hop manifestName iconName
      manifestName_head iconName_head)
    (joins_ne_of_disjoint pack out hpo hop manifestName contentsName
      manifestName_head contentsName_head)
    (joins_ne_of_disjoint pack out hpo hop iconName contentsName
      iconName_head contentsName_head)
    hk, hdec]
  dsimp only
  exact processEntries_run E pack out hpo hop entries _ _ hrel hek (fun e he => rfl)

/-- Claim C9 counterexample: the pipeline is not idempotent.  An index
entry whose absolute path points inside the output root is decrypted in
place on each run: the first run turns `[5, 6]` into `[4, 7]`, the second
run "decrypts" that again back to `[5, 6]`, so the two runs leave
different bytes in the output tree. -/
theorem claim_C9_counterexample :
    underRoot wOut (strBytes "/o/x.bin") = true ∧
    ((internal_decrypt wE1 wKey wPack wOut wFsC9).fs).lookup (strBytes "/o/x.bin") =
      some [4, 7] ∧
    ((internal_decrypt wE1 wKey wPack wOut
        ((internal_decrypt wE1 wKey wPack wOut wFsC9).fs)).fs).lookup
      (strBytes "/o/x.bin") = some [5, 6] := by
  refine ⟨by rfl, by rfl, by rfl⟩

/-- Claim C9 (amended): the run is a deterministic function of the cipher,
key, roots and filesystem, and — provided the archive and output roots are
disjoint absolute directory paths with clean segments, all index entry
paths are relative with only clean segments (no empty, `.` or `..`
components), and all per-entry keys are exactly 32 bytes — running the
pipeline a second time over the first run's result leaves every file, in
particular the whole output tree, exactly as the first run left it.  As
for C8, the theorem also proves that every path either run touches is a
fixed point of OS path resolution, so literal path bytes name exactly the
file the OS opens on such runs; a `..`-bearing entry path, which could
alias a pre-existing output file after resolution and be re-decrypted in
place, is excluded by the cleanliness proviso. -/
theorem claim_C9 (E : Bytes → Bytes → Bytes) (key pack out : Bytes) (fs : FS)
    (m i raw : Bytes) (entries : List ContentEntry)
    (hm : fs.lookup (joinPath pack manifestName) = some m)
    (hi : fs.lookup (joinPath pack iconName) = some i)
    (hraw : fs.lookup (joinPath pack contentsName) = some raw)
    (hpo : underRoot pack out = false) (hop : underRoot out pack = false)
    (hpa : pack.head? = some 47)
    (hpac : (splitSegs (pack.drop 1)).all cleanSeg = true)
    (hoa : out.head? = some 47)
    (hoac : (splitSegs (out.drop 1)).all cleanSeg = true)
    (hk : key.length = 32)
    (hdec : (jsonParse ((Aes256Cfb8Dec.mk key (key.take 16)).decrypt E
        (raw.drop 256))).bind decodeContent = some entries)
    (hclean : ∀ e ∈ entries, (splitSegs e.path).all cleanSeg = true)
    (hek : ∀ e ∈ entries, ∀ k2, e.key = some k2 → k2.length = 32) :
    (∀ e ∈ entries,
      resolvePath (joinPath pack e.path) = joinPath pack e.path ∧
      resolvePath (joinPath out e.path) = joinPath out e.path) ∧
    resolvePath (joinPath out manifestName) = joinPath out manifestName ∧
    resolvePath (joinPath out iconName) = joinPath out iconName ∧
    ∀ p : Bytes,
      ((internal_decrypt E key pack out
          ((internal_decrypt E key pack out fs).fs)).fs).lookup p =
        ((internal_decrypt E key pack out fs).fs).lookup p := by
  have hrel : ∀ e ∈ entries, e.path.head? ≠ some 47 :=
    fun e he => cleanSeg_head e.path (hclean e he)
  refine ⟨fun e he => ⟨resolvePath_join pack e.path hpa hpac (hclean e he),
      resolvePath_join out e.path hoa hoac (hclean e he)⟩,
    resolvePath_join out manifestName hoa hoac manifestName_clean,
    resolvePath_join out iconName hoa hoac iconName_clean, ?_⟩
  intro p
  have hrun1 := internal_decrypt_run E key pack out fs m i raw entries
    hm hi hraw hpo hop hk hdec hrel hek
  rw [hrun1]
  dsimp only [RunResult.fs]
  have hm1 : (applyWrites (sidecarWrites out fs m i)
      (entries.map (entryOut E pack out (sidecarWrites out fs m i)))).lookup
        (joinPath pack manifestName) = some m := by
    rw [applyWrites_pack_lookup E pack out hpo hop _ _ entries hrel _ manifestName_head,
      sidecarWrites_pack_lookup pack out hpo hop fs m i _ manifestName_head]
    exact hm
  have hi1 : (applyWrites (sidecarWrites out fs m i)
      (entries.map (entryOut E pack out (sidecarWrites out fs m i)))).lookup
        (joinPath pack iconName) = some i := by
    rw [applyWrites_pack_lookup E pack out hpo hop _ _ entries hrel _ iconName_head,
      sidecarWrites_pack_lookup pack out hpo hop fs m i _ iconName_head]
    exact hi
  have hraw1 : (applyWrites (sidecarWrites out fs m i)
      (entries.map (entryOut E pack out (sidecarWrites out fs m i)))).lookup
        (joinPath pack contentsName) = some raw := by
    rw [applyWrites_pack_lookup E pack out hpo hop _ _ entries hrel _ contentsName_head,
      sidecarWrites_pack_lookup pack out hpo hop fs m i _ contentsName_head]
    exact hraw
  have hrun2 := internal_decrypt_run E key pack out
    (applyWrites (sidecarWrites out fs m i)
      (entries.map (entryOut E pack out (sidecarWrites out fs m i))))
    m i raw entries hm1 hi1 hraw1 hpo hop hk hdec hrel hek
  rw [hrun2]
  dsimp only [RunResult.fs]
  have hagree2 : ∀ e ∈ entries,
      (sidecarWrites out (applyWrites (sidecarWrites out fs m i)
        (entries.map (entryOut E pack out (sidecarWrites out fs m i)))) m i).lookup
          (joinPath pack e.path) =
        (sidecarWrites out fs m i).lookup (joinPath pack e.path) := by
    intro e he
    rw [sidecarWrites_pack_lookup pack out hpo hop _ m i _ (hrel e he),
      applyWrites_pack_lookup E pack out hpo hop _ _ entries hrel _ (hrel e he),
      sidecarWrites_pack_lookup pack out hpo hop fs m i _ (hrel e he)]
  rw [lastWrite_map_congr E pack out _ _ entries hagree2]
  cases hl : lastWrite (entries.map (entryOut E pack out (sidecarWrites out fs m i))) p with
  | some v =>
    rw [applyWrites_lastWrite_some _ _ p v hl, applyWrites_lastWrite_some _ _ p v hl]
  | none =>
    rw [applyWrites_lastWrite_none _ _ p hl, applyWrites_lastWrite_none _ _ p hl]
    by_cases hpi : p = joinPath out iconName
    · subst hpi
      rw [sidecarWrites, FS.lookup_write_self, sidecarWrites, FS.lookup_write_self]
    · by_cases hpm : p = joinPath out manifestName
      · subst hpm
        rw [sidecarWrites, FS.lookup_write_ne _ _ _ _ hpi, FS.lookup_write_self,
          sidecarWrites, FS.lookup_write_ne _ _ _ _ hpi, FS.lookup_write_self]
      · rw [sidecarWrites, FS.lookup_write_ne _ _ _ _ hpi,
          FS.lookup_write_ne _ _ _ _ hpm,
          applyWrites_lastWrite_none _ _ p hl,
          sidecarWrites, FS.lookup_write_ne _ _ _ _ hpi,
          FS.lookup_write_ne _ _ _ _ hpm]

theorem claim_C9_witness :
    (∀ e ∈ ([⟨strBytes "x.bin", some wKey⟩] : List ContentEntry),
      resolvePath (joinPath wPack e.path) = joinPath wPack e.path ∧
      resolvePath (joinPath wOut e.path) = joinPath wOut e.path) ∧
    resolvePath (joinPath wOut manifestName) = joinPath wOut manifestName ∧
    resolvePath (joinPath wOut iconName) = joinPath wOut iconName ∧
    ∀ p : Bytes,
      ((internal_decrypt wE1 wKey wPack wOut
          ((internal_decrypt wE1 wKey wPack wOut wFsC9w).fs)).fs).lookup p =
        ((internal_decrypt wE1 wKey wPack wOut wFsC9w).fs).lookup p :=
  claim_C9 wE1 wKey wPack wOut wFsC9w [1] [2]
    (List.replicate 256 0 ++
      (strBytes "\x7b\"content\":[\x7b\"path\":\"x.bin\",\"key\":\"0123456789abcdef0123456789abcdef\"\x7d]\x7d").map
        (fun b => b ^^^ 1))
    [⟨strBytes "x.bin", some wKey⟩]
    (by rfl) (by rfl) (by rfl) (by decide) (by decide) (by rfl) (by decide)
    (by rfl) (by decide) (by rfl) (by rfl)
    (by decide)
    (by
      rintro e he k2 hk2
      rw [List.mem_singleton] at he
      subst he
      injection hk2 with h
      rw [← h]
      rfl)
